import Mathlib

/-!
Verification of the Depends library: a shallow embedding of the DAG
container (src/dag.hpp, with nodes from the Details::Node in
src/unnamed/part_001) and of the dependency tracker (src/depends.hpp),
together with proofs and refutations of the specified properties.

Modelling conventions:
* `score_type` is `unsigned long`; scores are natural numbers and the
  C++ `+=` / `-=` are modelled with wrap-around arithmetic modulo `2 ^ 64`
  (`wadd` / `wsub`).
* A `Node` allocated with `new` is modelled by a record carrying an
  allocation identifier `nid` (standing for the node's address; fresh
  addresses are modelled as increasing allocation order), the stored
  value, the score, and the list of successor identifiers (`targets_`,
  a vector of node pointers in the source).
* The `VISITED` flag is transient: `Details::ScopedFlag` sets it on
  construction and clears it on destruction (see the description in
  src/lib/Depends/Details/documentation.hpp), so after any traversal -
  including one unwound by a thrown `CircularReference` - all flags are
  clear again.  Traversals therefore take the set of currently flagged
  nodes as an explicit argument and the flags are not part of the state.
* `Node::visit` (src/unnamed/part_001, lines 111-137) recurses through
  the target pointers; the recursion is modelled with a fuel parameter,
  and every caller passes one more unit of fuel than there are nodes,
  which is shown to be enough for the traversal to be fuel-independent.
-/

/-- Wrap-around bound of the C++ `unsigned long` score type. -/
def W : Nat := 2 ^ 64

/-- Wrap-around addition, modelling `score_ += score` on `unsigned long`. -/
def wadd (a b : Nat) : Nat := (a + b) % W

/-- Wrap-around subtraction, modelling `score_ -= score` on `unsigned long`. -/
def wsub (a b : Nat) : Nat := (a + (W - b % W)) % W

/-- One DAG node (`Details::Node`): stored value, score (starts at 1),
outgoing edges (`targets_`, as allocation identifiers of the pointed-to
nodes), where `nid` is the allocation identifier standing for the node's
address. -/
structure DNode where
  nid : Nat
  value : Int
  score : Nat
  targets : List Nat
deriving DecidableEq

/-- The state of a `Depends::DAG`: the `nodes_` vector in its current
order (which is the iteration order), plus the next allocation
identifier. -/
structure DAGSt where
  nodes : List DNode
  nextId : Nat
deriving DecidableEq

/-- The node with a given identifier, scanning `nodes_` in order. -/
def nodeOf? (nodes : List DNode) (x : Nat) : Option DNode :=
  nodes.find? (fun n => n.nid == x)

/-- Outgoing edges of the node with identifier `x` (empty if absent). -/
def targetsOfN (nodes : List DNode) (x : Nat) : List Nat :=
  ((nodeOf? nodes x).map DNode.targets).getD []

/-- Score of the node with identifier `x` (0 if absent). -/
def scoreOfN (nodes : List DNode) (x : Nat) : Nat :=
  ((nodeOf? nodes x).map DNode.score).getD 0

/-- Allocation identifiers present in the graph. -/
def idsOf (nodes : List DNode) : List Nat := nodes.map DNode.nid

/-- Values stored in the graph, in iteration order. -/
def valuesOf (nodes : List DNode) : List Int := nodes.map DNode.value

/-- Sequentially visit a list of children with one fixed visiting
function, concatenating the visit sequences and propagating the first
thrown `CircularReference` (the `for (auto target : targets_)` loop in
`Node::visit`). -/
def visitChildren (v1 : Nat → Except Unit (List Nat)) : List Nat → Except Unit (List Nat)
  | [] => .ok []
  | c :: cs =>
    match v1 c with
    | .error e => .error e
    | .ok l =>
      match visitChildren v1 cs with
      | .error e => .error e
      | .ok l2 => .ok (l ++ l2)

/-- `Node::visit` (src/unnamed/part_001, lines 111-137): if this node is
flagged `VISITED`, throw `CircularReference`; otherwise apply the functor
to this node, then, with this node flagged for the duration, visit every
target in order.  The returned list is the sequence of nodes to which the
functor is applied, in application order (`.error ()` is the thrown
`CircularReference`).  `fuel` only bounds the recursion depth; every
caller supplies enough fuel for the bound never to be hit. -/
def visitNodeF : Nat → List DNode → List Nat → Nat → Except Unit (List Nat)
  | 0, _, _, _ => .error ()
  | fuel + 1, nodes, flags, x =>
    if x ∈ flags then .error ()
    else
      match visitChildren (visitNodeF fuel nodes (x :: flags)) (targetsOfN nodes x) with
      | .error e => .error e
      | .ok l => .ok (x :: l)

/-- Fuel sufficient for any traversal of the graph: one more than the
number of nodes. -/
def fuelOf (st : DAGSt) : Nat := st.nodes.length + 1

/-- Apply one score update per occurrence of a node in a visit sequence
(the functor of `visit` runs once per application, each time updating
that node's score). -/
def applyVisits (nodes : List DNode) (l : List Nat) (step : Nat → Nat) : List DNode :=
  nodes.map fun n => { n with score := step^[l.count n.nid] n.score }

/-- Re-sorting of `nodes_` done at the end of `DAG::link`
(src/dag.hpp line 292): `std::sort` with the comparator
`lhs->score_ < rhs->score_`, i.e. the vector ends up sorted by ascending
score (ties in unspecified order; modelled by a stable sort). -/
def sortByScore (nodes : List DNode) : List DNode :=
  nodes.insertionSort (fun a b => a.score ≤ b.score)

/-- The sort done at the end of `DAG::unlink` (src/dag.hpp line 403):
`std::sort(nodes_.begin(), nodes_.end())` sorts the raw `node_type*`
pointers by address, NOT by score.  Addresses are modelled by allocation
order, i.e. the vector ends up sorted by allocation identifier. -/
def sortByNid (nodes : List DNode) : List DNode :=
  nodes.insertionSort (fun a b => a.nid ≤ b.nid)

/-- `DAG::insert` (src/dag.hpp lines 251-262): if no node holds an equal
value, a new node with score 1 and no edges is inserted at the beginning
of `nodes_`; returns whether an insertion occurred. -/
def DAG.insert (st : DAGSt) (v : Int) : DAGSt × Bool :=
  if st.nodes.any fun n => n.value == v then (st, false)
  else ({ nodes := ⟨st.nextId, v, 1, []⟩ :: st.nodes, nextId := st.nextId + 1 }, true)

/-- The edge insertion `source.node()->targets_.push_back(target.node())`
of `DAG::link` (src/dag.hpp line 288). -/
def DAG.addEdge (st : DAGSt) (s t : Nat) : DAGSt :=
  { st with nodes := st.nodes.map fun n => if n.nid = s then { n with targets := n.targets ++ [t] } else n }

/-- `DAG::link` on two valid iterators (src/dag.hpp lines 282-293),
`s` and `t` being the identifiers of the source and target nodes:
1. cycle check: with the source flagged `VISITED` (`ScopedFlag`), visit
   everything reachable from the target with the no-op functor; a thrown
   `CircularReference` aborts the call before any mutation (`none`);
2. append the edge to the source's target vector;
3. visit from the target with the functor `node->score_ += score`, where
   `score` is the source's score (passed by value);
4. re-sort `nodes_` by ascending score.
The second traversal re-throwing is impossible on an acyclic graph (see
`link_prop_ok`); the model maps that branch to `none` as well. -/
def DAG.link (st : DAGSt) (s t : Nat) : Option DAGSt :=
  match visitNodeF (fuelOf st) st.nodes [s] t with
  | .error _ => none
  | .ok _ =>
    let st1 := DAG.addEdge st s t
    let d := scoreOfN st1.nodes s
    match visitNodeF (fuelOf st1) st1.nodes [] t with
    | .error _ => none
    | .ok l => some { st1 with nodes := sortByScore (applyVisits st1.nodes l (fun sc => wadd sc d)) }

/-- The edge removal step of `DAG::unlink` (src/dag.hpp lines 391-395):
erase the first occurrence of the target in the source's target vector
(`std::find` then `erase`). -/
def DAG.removeEdge (st : DAGSt) (s t : Nat) : DAGSt :=
  { st with nodes := st.nodes.map fun n => if n.nid = s then { n with targets := n.targets.erase t } else n }

/-- `DAG::unlink` on two valid iterators (src/dag.hpp lines 388-406):
remove the first occurrence of the edge from the source's target vector
if present (the returned Bool); then - unconditionally, whether or not an
edge was removed - visit from the target with `node->score_ -= score`
(`score` being the source's score) and sort the node-pointer vector
(by address, i.e. by allocation identifier in the model). -/
def DAG.unlink (st : DAGSt) (s t : Nat) : DAGSt × Bool :=
  let present := t ∈ targetsOfN st.nodes s
  let st1 := if present then DAG.removeEdge st s t else st
  let d := scoreOfN st1.nodes s
  match visitNodeF (fuelOf st1) st1.nodes [] t with
  | .error _ => (st1, present)
  | .ok l => ({ st1 with nodes := sortByNid (applyVisits st1.nodes l (fun sc => wsub sc d)) }, present)

/-- `DAG::linked` on two valid iterators (src/dag.hpp lines 341-354):
flag the TARGET node `VISITED` (`ScopedFlag`), visit from the source with
the no-op functor; return true exactly when a `CircularReference` is
caught. -/
def DAG.linkedN (st : DAGSt) (s t : Nat) : Bool :=
  match visitNodeF (fuelOf st) st.nodes [t] s with
  | .error _ => true
  | .ok _ => false

/-- Identifier of the node storing value `v` (`std::find(begin(), end(), v)`). -/
def findNid (st : DAGSt) (v : Int) : Option Nat :=
  (st.nodes.find? (fun n => n.value == v)).map DNode.nid

/-- Value stored by the node with identifier `x` (0 if absent). -/
def valueOfNid (st : DAGSt) (x : Nat) : Int :=
  ((nodeOf? st.nodes x).map DNode.value).getD 0

/-- Errors a by-value `DAG::link` can throw: `std::invalid_argument`
(value not found) or `CircularReference`. -/
inductive LinkErr
  | notFound
  | circular
deriving DecidableEq

/-- `DAG::link` by values (src/dag.hpp lines 330-338): find both nodes,
throw `invalid_argument` if either is missing, then link by iterators. -/
def DAG.linkV (st : DAGSt) (a b : Int) : Except LinkErr DAGSt :=
  match findNid st a, findNid st b with
  | some s, some t =>
    match DAG.link st s t with
    | none => .error .circular
    | some st' => .ok st'
  | _, _ => .error .notFound

/-- `DAG::unlink` by values (src/dag.hpp lines 429-437): find both
nodes, throw `invalid_argument` if either is missing, then unlink by
iterators. -/
def DAG.unlinkV (st : DAGSt) (a b : Int) : Option (DAGSt × Bool) :=
  match findNid st a, findNid st b with
  | some s, some t => some (DAG.unlink st s t)
  | _, _ => none

/-- `DAG::linked` by values (src/dag.hpp lines 377-385): false if either
value is absent. -/
def DAG.linkedV (st : DAGSt) (a b : Int) : Bool :=
  match findNid st a, findNid st b with
  | some s, some t => DAG.linkedN st s t
  | _, _ => false

/-- The unlink loop of a node deletion, keyed to a FIXED node
identifier `x`: while `x` still has outgoing edges, `unlink` it from
its first target.  The source's loop (src/dag.hpp lines 444-447) is
positional: it re-reads the node at the iterator's position every
iteration, and the address sort at the end of each `unlink` can move a
different node into that position - the faithful positional loop is
`erasePosLoop` below.  This fixed-identifier loop is the building block
of `DReach` (a positional run is a sequence of plain `unlink` steps).
Each iteration removes one edge occurrence, so `x`'s out-degree is
enough fuel. -/
def eraseOutLoop : Nat → DAGSt → Nat → DAGSt
  | 0, st, _ => st
  | fuel + 1, st, x =>
    match targetsOfN st.nodes x with
    | [] => st
    | t :: _ => eraseOutLoop fuel (DAG.unlink st x t).1 x

/-- Deletion of the node with identifier `x`: unlink all of `x`'s
outgoing edges (with their score propagation), then strip every edge
pointing to `x` (no score adjustment), then remove `x`'s node.
`DAG::erase` (src/dag.hpp lines 442-474) runs these steps POSITIONALLY;
`DAG.erasePos` below is the faithful composite, and because of the
address sort inside `unlink` it can end up deleting a different node
than the one initially at the position.  Every positional run
decomposes into plain `unlink` steps followed by one fixed-identifier
deletion - of the node finally at the position, whose target list is
then empty - which is exactly this function, so `DReach` built on it
covers all positional executions. -/
def DAG.eraseN (st : DAGSt) (x : Nat) : DAGSt :=
  let st1 := eraseOutLoop (targetsOfN st.nodes x).length st x
  { st1 with
    nodes := (st1.nodes.filter fun n => n.nid ≠ x).map fun n =>
      { n with targets := n.targets.filter fun t => t ≠ x } }

/-- Total number of edge occurrences in the graph.  Each iteration of
the positional erase loop removes one, so this bounds the loop. -/
def totalEdges (st : DAGSt) : Nat := (st.nodes.map fun n => n.targets.length).sum

/-- The while-loop of `DAG::erase` (src/dag.hpp lines 444-447) as the
source actually runs it: `where` wraps a POSITION `p` in the `nodes_`
vector and `where.node()` is re-read each iteration; while the node
currently at that position has outgoing edges, call
`unlink(where, (where.node()->targets_[0])->value_)` - the source node
is the one at the position, the target is resolved BY VALUE from the
first target pointer.  Each `unlink` ends with the address sort of the
vector, so the node at position `p` can change between iterations.
(A failed by-value lookup would throw `invalid_argument` in the source;
values are pairwise distinct in every program state, so the lookup
always resolves to the pointed-to node itself.) -/
def erasePosLoop : Nat → DAGSt → Nat → DAGSt
  | 0, st, _ => st
  | fuel + 1, st, p =>
    match st.nodes[p]? with
    | none => st
    | some n =>
      match n.targets with
      | [] => st
      | t0 :: _ =>
        match findNid st (valueOfNid st t0) with
        | none => st
        | some t => erasePosLoop fuel (DAG.unlink st n.nid t).1 p

/-- `DAG::erase` at a position (src/dag.hpp lines 442-474), faithful to
the source: run the positional unlink loop, then take the node NOW at
the position (`auto target(where.node())`), strip every edge pointing
to it from every node's target vector, delete it and erase the vector
slot.  When the unlink loop's address sorts have moved another node
into the position, that other node is the one deleted. -/
def DAG.erasePos (st : DAGSt) (p : Nat) : DAGSt :=
  let st1 := erasePosLoop (totalEdges st + 1) st p
  match st1.nodes[p]? with
  | none => st1
  | some m =>
    { st1 with nodes := (st1.nodes.eraseIdx p).map fun k =>
        { k with targets := k.targets.filter fun u => u ≠ m.nid } }

/-- The empty DAG. -/
def DAG.empty : DAGSt := ⟨[], 0⟩

/-- Direct edge relation of the graph: `b` is in the target list of the
node with identifier `a`. -/
def Estep (nodes : List DNode) (a b : Nat) : Prop := b ∈ targetsOfN nodes a

instance (nodes : List DNode) (a b : Nat) : Decidable (Estep nodes a b) := by
  unfold Estep; infer_instance

/-- Reachability along zero or more edges. -/
def Reaches (nodes : List DNode) : Nat → Nat → Prop := Relation.ReflTransGen (Estep nodes)

/-- No node is reachable from itself along a non-empty path. -/
def Acyclic (nodes : List DNode) : Prop := ∀ x, ¬ Relation.TransGen (Estep nodes) x x

/-- Structural well-formedness of a DAG state: allocation identifiers
are unique and below the allocation counter, edges point to existing
nodes, stored values are unique, scores are `unsigned long` values, and
the edge relation is acyclic. -/
structure WF (st : DAGSt) : Prop where
  nidsNodup : (st.nodes.map DNode.nid).Nodup
  closed : ∀ n ∈ st.nodes, ∀ t ∈ n.targets, t ∈ idsOf st.nodes
  bounded : ∀ n ∈ st.nodes, n.nid < st.nextId
  valsNodup : (st.nodes.map DNode.value).Nodup
  scoresLt : ∀ n ∈ st.nodes, n.score < W
  acyclic : Acyclic st.nodes

lemma nodeOf?_eq_none {nodes : List DNode} {x : Nat} :
    nodeOf? nodes x = none ↔ x ∉ idsOf nodes := by
  unfold nodeOf? idsOf
  rw [List.find?_eq_none]
  constructor
  · intro h hmem
    rcases List.mem_map.mp hmem with ⟨n, hn, hnx⟩
    exact h n hn (by simp [hnx])
  · intro h n hn hp
    exact h (List.mem_map.mpr ⟨n, hn, by simpa using hp⟩)

lemma nodeOf?_spec {nodes : List DNode} {x : Nat} {n : DNode}
    (h : nodeOf? nodes x = some n) : n ∈ nodes ∧ n.nid = x := by
  refine ⟨List.mem_of_find?_eq_some h, ?_⟩
  have := List.find?_some h
  simpa using this

lemma nodeOf?_of_mem {nodes : List DNode} (hnd : (nodes.map DNode.nid).Nodup)
    {n : DNode} (hn : n ∈ nodes) : nodeOf? nodes n.nid = some n := by
  have hsome : (nodes.find? (fun m => m.nid == n.nid)).isSome := by
    rw [List.find?_isSome]
    exact ⟨n, hn, by simp⟩
  rcases Option.isSome_iff_exists.mp hsome with ⟨m, hm⟩
  rcases nodeOf?_spec hm with ⟨hmem, hnid⟩
  have : m = n := List.inj_on_of_nodup_map hnd hmem hn hnid
  rw [nodeOf?, hm, this]

lemma targetsOfN_of_not_mem {nodes : List DNode} {x : Nat}
    (h : x ∉ idsOf nodes) : targetsOfN nodes x = [] := by
  unfold targetsOfN
  rw [nodeOf?_eq_none.mpr h]
  rfl

lemma estep_mem_ids {nodes : List DNode} {a b : Nat} (h : Estep nodes a b) :
    a ∈ idsOf nodes := by
  by_contra hn
  rw [Estep, targetsOfN_of_not_mem hn] at h
  exact absurd h (List.not_mem_nil b)

lemma reaches_of_not_mem {nodes : List DNode} {x y : Nat}
    (hx : x ∉ idsOf nodes) (h : Reaches nodes x y) : y = x := by
  rcases Relation.ReflTransGen.cases_head_iff.mp h with heq | ⟨c, hc, _⟩
  · exact heq.symm
  · exact absurd (estep_mem_ids hc) hx
lemma visitChildren_error_iff (v1 : Nat → Except Unit (List Nat)) :
    ∀ cs : List Nat, (visitChildren v1 cs = .error () ↔ ∃ c ∈ cs, v1 c = .error ()) := by
  intro cs
  induction cs with
  | nil => simp [visitChildren]
  | cons c cs ih =>
    cases h1 : v1 c with
    | error e =>
      cases e
      exact iff_of_true (by simp [visitChildren, h1]) ⟨c, List.mem_cons_self c cs, h1⟩
    | ok l =>
      cases h2 : visitChildren v1 cs with
      | error e =>
        cases e
        rcases ih.mp h2 with ⟨d, hd, hde⟩
        exact iff_of_true (by simp [visitChildren, h1, h2]) ⟨d, List.mem_cons_of_mem c hd, hde⟩
      | ok l2 =>
        apply iff_of_false (by simp [visitChildren, h1, h2])
        rintro ⟨d, hd, hde⟩
        rcases List.mem_cons.mp hd with rfl | hd2
        · simp [h1] at hde
        · exact absurd (ih.mpr ⟨d, hd2, hde⟩) (by simp [h2])

lemma visitChildren_ok_forall {v1 : Nat → Except Unit (List Nat)} :
    ∀ {cs : List Nat} {L : List Nat}, visitChildren v1 cs = .ok L →
      ∀ c ∈ cs, ∃ lc, v1 c = .ok lc := by
  intro cs
  induction cs with
  | nil => intro L _ c hc; exact absurd hc (List.not_mem_nil c)
  | cons c cs ih =>
    intro L h d hd
    cases h1 : v1 c with
    | error e => simp [visitChildren, h1] at h
    | ok l =>
      cases h2 : visitChildren v1 cs with
      | error e => simp [visitChildren, h1, h2] at h
      | ok l2 =>
        rcases List.mem_cons.mp hd with rfl | hdcs
        · exact ⟨l, h1⟩
        · exact ih h2 d hdcs

lemma visitChildren_ok_mem {v1 : Nat → Except Unit (List Nat)} :
    ∀ {cs : List Nat} {L : List Nat}, visitChildren v1 cs = .ok L →
      ∀ y, (y ∈ L ↔ ∃ c ∈ cs, ∃ lc, v1 c = .ok lc ∧ y ∈ lc) := by
  intro cs
  induction cs with
  | nil =>
    intro L h y
    have hL : L = [] := by
      simp only [visitChildren, Except.ok.injEq] at h
      exact h.symm
    simp [hL]
  | cons c cs ih =>
    intro L h y
    cases h1 : v1 c with
    | error e => simp [visitChildren, h1] at h
    | ok l =>
      cases h2 : visitChildren v1 cs with
      | error e => simp [visitChildren, h1, h2] at h
      | ok l2 =>
        have hL : L = l ++ l2 := by
          simp only [visitChildren, h1, h2, Except.ok.injEq] at h
          exact h.symm
        subst hL
        simp only [List.mem_append, List.mem_cons]
        constructor
        · rintro (hy | hy)
          · exact ⟨c, Or.inl rfl, l, h1, hy⟩
          · rcases (ih h2 y).mp hy with ⟨d, hd, lc, hok, hmem⟩
            exact ⟨d, Or.inr hd, lc, hok, hmem⟩
        · rintro ⟨d, hd | hd, lc, hok, hmem⟩
          · subst hd
            rw [h1] at hok
            cases hok
            exact Or.inl hmem
          · exact Or.inr ((ih h2 y).mpr ⟨d, hd, lc, hok, hmem⟩)

lemma step_flag_iff {nodes : List DNode} (hacyc : Acyclic nodes)
    {flags : List Nat} {x : Nat} (hx : x ∉ flags) :
    (∃ c ∈ targetsOfN nodes x, ∃ f ∈ x :: flags, Reaches nodes c f) ↔
      ∃ f ∈ flags, Reaches nodes x f := by
  constructor
  · rintro ⟨c, hc, f, hf, hr⟩
    rcases List.mem_cons.mp hf with hfx | hff
    · subst hfx
      exact absurd (Relation.TransGen.head' (b := c) hc hr) (hacyc f)
    · exact ⟨f, hff, Relation.ReflTransGen.head hc hr⟩
  · rintro ⟨f, hf, hr⟩
    rcases Relation.ReflTransGen.cases_head_iff.mp hr with heq | ⟨c, hc, hcr⟩
    · exact absurd (heq ▸ hf) hx
    · exact ⟨c, hc, f, List.mem_cons_of_mem x hf, hcr⟩

lemma card_sdiff_cons {ids : Finset Nat} {flags : List Nat} {x : Nat} {fuel : Nat}
    (hx : x ∉ flags) (hid : x ∈ ids)
    (hcard : (ids \ flags.toFinset).card < fuel + 1) :
    (ids \ (x :: flags).toFinset).card < fuel := by
  have hmem : x ∈ ids \ flags.toFinset := by
    rw [Finset.mem_sdiff]
    exact ⟨hid, by simpa using hx⟩
  have hsub : ids \ (x :: flags).toFinset = (ids \ flags.toFinset).erase x := by
    ext a
    simp only [Finset.mem_sdiff, List.toFinset_cons, Finset.mem_insert, Finset.mem_erase,
      List.mem_toFinset]
    tauto
  rw [hsub, Finset.card_erase_of_mem hmem]
  have hpos : 0 < (ids \ flags.toFinset).card := Finset.card_pos.mpr ⟨x, hmem⟩
  omega

/-- Master characterisation of Node.visit on an acyclic graph, given
enough fuel: it throws CircularReference exactly when some currently
flagged node is reachable from the start node, and on success the visit
sequence contains exactly the nodes reachable from the start node, the
start node exactly once. -/
theorem visit_main {nodes : List DNode} (hacyc : Acyclic nodes) :
    ∀ (fuel : Nat) (flags : List Nat) (x : Nat),
      ((idsOf nodes).toFinset \ flags.toFinset).card < fuel →
      ((visitNodeF fuel nodes flags x = .error () ↔ ∃ f ∈ flags, Reaches nodes x f)
        ∧ ∀ l, visitNodeF fuel nodes flags x = .ok l →
            ((∀ y, (y ∈ l ↔ Reaches nodes x y)) ∧ l.count x = 1)) := by
  intro fuel
  induction fuel with
  | zero => intro flags x h; exact absurd h (Nat.not_lt_zero _)
  | succ fuel ih =>
    intro flags x hcard
    by_cases hx : x ∈ flags
    · constructor
      · exact iff_of_true (by simp [visitNodeF, hx]) ⟨x, hx, Relation.ReflTransGen.refl⟩
      · intro l hl
        simp [visitNodeF, hx] at hl
    · by_cases hid : x ∈ idsOf nodes
      · have hcard' : ((idsOf nodes).toFinset \ (x :: flags).toFinset).card < fuel :=
          card_sdiff_cons hx (by simpa using hid) hcard
        have herr : (visitChildren (visitNodeF fuel nodes (x :: flags)) (targetsOfN nodes x)
              = .error ()) ↔ ∃ f ∈ flags, Reaches nodes x f := by
          rw [visitChildren_error_iff]
          constructor
          · rintro ⟨c, hc, hce⟩
            exact (step_flag_iff hacyc hx).mp ⟨c, hc, ((ih (x :: flags) c hcard').1).mp hce⟩
          · intro hf
            rcases (step_flag_iff hacyc hx).mpr hf with ⟨c, hc, hcf⟩
            exact ⟨c, hc, ((ih (x :: flags) c hcard').1).mpr hcf⟩
        constructor
        · cases hvc : visitChildren (visitNodeF fuel nodes (x :: flags)) (targetsOfN nodes x) with
          | error e =>
            cases e
            exact iff_of_true (by simp [visitNodeF, hx, hvc]) (herr.mp hvc)
          | ok L =>
            apply iff_of_false (by simp [visitNodeF, hx, hvc])
            intro hf
            exact absurd (herr.mpr hf) (by simp [hvc])
        · intro l hl
          cases hvc : visitChildren (visitNodeF fuel nodes (x :: flags)) (targetsOfN nodes x) with
          | error e => simp [visitNodeF, hx, hvc] at hl
          | ok L =>
            have hlL : l = x :: L := by
              simp only [visitNodeF, if_neg hx, hvc, Except.ok.injEq] at hl
              exact hl.symm
            subst hlL
            have hmemL : ∀ y, (y ∈ L ↔ ∃ c ∈ targetsOfN nodes x, Reaches nodes c y) := by
              intro y
              rw [visitChildren_ok_mem hvc y]
              constructor
              · rintro ⟨c, hc, lc, hok, hy⟩
                exact ⟨c, hc, (((ih (x :: flags) c hcard').2 lc hok).1 y).mp hy⟩
              · rintro ⟨c, hc, hr⟩
                rcases visitChildren_ok_forall hvc c hc with ⟨lc, hok⟩
                exact ⟨c, hc, lc, hok, (((ih (x :: flags) c hcard').2 lc hok).1 y).mpr hr⟩
            constructor
            · intro y
              rw [List.mem_cons, hmemL y]
              unfold Reaches
              rw [Relation.ReflTransGen.cases_head_iff (a := x) (b := y)]
              constructor
              · rintro (hyx | ⟨c, hc, hr⟩)
                · exact Or.inl hyx.symm
                · exact Or.inr ⟨c, hc, hr⟩
              · rintro (hyx | ⟨c, hc, hr⟩)
                · exact Or.inl hyx.symm
                · exact Or.inr ⟨c, hc, hr⟩
            · have hxL : x ∉ L := by
                intro hmem
                rcases (hmemL x).mp hmem with ⟨c, hc, hr⟩
                exact absurd (Relation.TransGen.head' (b := c) hc hr) (hacyc x)
              simp [List.count_cons, List.count_eq_zero.mpr hxL]
      · have htg : targetsOfN nodes x = [] := targetsOfN_of_not_mem hid
        have hres : visitNodeF (fuel + 1) nodes flags x = .ok [x] := by
          simp [visitNodeF, hx, htg, visitChildren]
        constructor
        · apply iff_of_false (by simp [hres])
          rintro ⟨f, hf, hr⟩
          exact absurd ((reaches_of_not_mem hid hr) ▸ hf) hx
        · intro l hl
          rw [hres] at hl
          have hlx : l = [x] := by
            cases hl
            rfl
          subst hlx
          constructor
          · intro y
            simp only [List.mem_singleton]
            constructor
            · rintro rfl
              exact Relation.ReflTransGen.refl
            · intro hr
              exact reaches_of_not_mem hid hr
          · simp
lemma card_ids_lt_fuelOf (st : DAGSt) (flags : List Nat) :
    ((idsOf st.nodes).toFinset \ flags.toFinset).card < fuelOf st := by
  have h1 : ((idsOf st.nodes).toFinset \ flags.toFinset).card ≤ (idsOf st.nodes).toFinset.card :=
    Finset.card_le_card (Finset.sdiff_subset)
  have h2 : (idsOf st.nodes).toFinset.card ≤ (idsOf st.nodes).length := List.toFinset_card_le _
  have h3 : (idsOf st.nodes).length = st.nodes.length := by simp [idsOf]
  unfold fuelOf
  omega

/-- The cycle check of `DAG::link` (source flagged, visit from target)
throws exactly when the source is reachable from the target (which
includes source = target). -/
theorem visit_check_iff {st : DAGSt} (hacyc : Acyclic st.nodes) (s t : Nat) :
    (visitNodeF (fuelOf st) st.nodes [s] t = .error () ↔ Reaches st.nodes t s) := by
  have h := (visit_main hacyc (fuelOf st) [s] t (card_ids_lt_fuelOf st [s])).1
  simpa using h

/-- A visit with no flags set never throws on an acyclic graph, and its
visit sequence consists of the reachable nodes, the start node once. -/
theorem visit_empty_ok {st : DAGSt} (hacyc : Acyclic st.nodes) (t : Nat) :
    ∃ l, visitNodeF (fuelOf st) st.nodes [] t = .ok l ∧
      (∀ y, (y ∈ l ↔ Reaches st.nodes t y)) ∧ l.count t = 1 := by
  have H := visit_main hacyc (fuelOf st) [] t (card_ids_lt_fuelOf st [])
  cases h : visitNodeF (fuelOf st) st.nodes [] t with
  | error e =>
    cases e
    have := H.1.mp h
    simp at this
  | ok l => exact ⟨l, rfl, H.2 l h⟩

lemma nodeOf?_map (f : DNode → DNode) (hf : ∀ n, (f n).nid = n.nid) (nodes : List DNode) (x : Nat) :
    nodeOf? (nodes.map f) x = (nodeOf? nodes x).map f := by
  induction nodes with
  | nil => rfl
  | cons a l ih =>
    by_cases h : a.nid = x
    · rw [List.map_cons, nodeOf?, List.find?_cons_of_pos _ (by simp [hf, h]),
        nodeOf?, List.find?_cons_of_pos _ (by simp [h])]
      rfl
    · rw [List.map_cons, nodeOf?, List.find?_cons_of_neg _ (by simp [hf, h]),
        nodeOf?, List.find?_cons_of_neg _ (by simp [h])]
      exact ih

lemma nodeOf?_eq_some_iff {nodes : List DNode} (hnd : (nodes.map DNode.nid).Nodup)
    {x : Nat} {n : DNode} :
    nodeOf? nodes x = some n ↔ (n ∈ nodes ∧ n.nid = x) := by
  constructor
  · exact nodeOf?_spec
  · rintro ⟨hm, rfl⟩
    exact nodeOf?_of_mem hnd hm

lemma nodeOf?_perm {nodes nodes' : List DNode} (hperm : nodes.Perm nodes')
    (hnd : (nodes.map DNode.nid).Nodup) (x : Nat) :
    nodeOf? nodes' x = nodeOf? nodes x := by
  have hnd' : (nodes'.map DNode.nid).Nodup := ((hperm.map DNode.nid).nodup_iff).mp hnd
  cases h : nodeOf? nodes x with
  | none =>
    rw [nodeOf?_eq_none] at h ⊢
    intro hmem
    exact h (by simpa [idsOf] using ((hperm.map DNode.nid).mem_iff).mpr (by simpa [idsOf] using hmem))
  | some n =>
    rcases nodeOf?_spec h with ⟨hm, hx⟩
    exact (nodeOf?_eq_some_iff hnd').mpr ⟨(hperm.mem_iff).mp hm, hx⟩

lemma idsOf_map_pres (f : DNode → DNode) (hf : ∀ n, (f n).nid = n.nid) (nodes : List DNode) :
    idsOf (nodes.map f) = idsOf nodes := by
  unfold idsOf
  rw [List.map_map]
  exact List.map_congr_left (fun n _ => hf n)

lemma valuesOf_map_pres (f : DNode → DNode) (hf : ∀ n, (f n).value = n.value) (nodes : List DNode) :
    valuesOf (nodes.map f) = valuesOf nodes := by
  unfold valuesOf
  rw [List.map_map]
  exact List.map_congr_left (fun n _ => hf n)

lemma targetsOfN_map (f : DNode → DNode) (hf : ∀ n, (f n).nid = n.nid)
    (hft : ∀ n, (f n).targets = n.targets) (nodes : List DNode) (x : Nat) :
    targetsOfN (nodes.map f) x = targetsOfN nodes x := by
  rw [targetsOfN, nodeOf?_map f hf]
  cases h : nodeOf? nodes x with
  | none => simp [targetsOfN, h]
  | some n => simp [targetsOfN, h, hft]

lemma targetsOfN_perm {nodes nodes' : List DNode} (hperm : nodes.Perm nodes')
    (hnd : (nodes.map DNode.nid).Nodup) (x : Nat) :
    targetsOfN nodes' x = targetsOfN nodes x := by
  rw [targetsOfN, targetsOfN, nodeOf?_perm hperm hnd]

lemma scoreOfN_perm {nodes nodes' : List DNode} (hperm : nodes.Perm nodes')
    (hnd : (nodes.map DNode.nid).Nodup) (x : Nat) :
    scoreOfN nodes' x = scoreOfN nodes x := by
  rw [scoreOfN, scoreOfN, nodeOf?_perm hperm hnd]

lemma targetsOfN_applyVisits (nodes : List DNode) (l : List Nat) (step : Nat → Nat) (x : Nat) :
    targetsOfN (applyVisits nodes l step) x = targetsOfN nodes x := by
  unfold applyVisits
  exact targetsOfN_map (fun n => { n with score := step^[l.count n.nid] n.score })
    (fun _ => rfl) (fun _ => rfl) nodes x

lemma idsOf_applyVisits (nodes : List DNode) (l : List Nat) (step : Nat → Nat) :
    idsOf (applyVisits nodes l step) = idsOf nodes := by
  unfold applyVisits
  exact idsOf_map_pres (fun n => { n with score := step^[l.count n.nid] n.score })
    (fun _ => rfl) nodes

lemma scoreOfN_applyVisits {nodes : List DNode} {x : Nat} {n : DNode}
    (h : nodeOf? nodes x = some n) (l : List Nat) (step : Nat → Nat) :
    scoreOfN (applyVisits nodes l step) x = step^[l.count x] (scoreOfN nodes x) := by
  have hx := (nodeOf?_spec h).2
  unfold applyVisits
  rw [scoreOfN,
    nodeOf?_map (fun n => { n with score := step^[l.count n.nid] n.score }) (fun _ => rfl), h]
  simp [scoreOfN, h, hx]

lemma scoreOfN_applyVisits_absent {nodes : List DNode} {x : Nat}
    (h : nodeOf? nodes x = none) (l : List Nat) (step : Nat → Nat) :
    scoreOfN (applyVisits nodes l step) x = 0 := by
  unfold applyVisits
  rw [scoreOfN,
    nodeOf?_map (fun n => { n with score := step^[l.count n.nid] n.score }) (fun _ => rfl), h]
  rfl

lemma nodeOf?_addEdge (st : DAGSt) (s t x : Nat) :
    nodeOf? (DAG.addEdge st s t).nodes x
      = (nodeOf? st.nodes x).map
          (fun n => if n.nid = s then { n with targets := n.targets ++ [t] } else n) :=
  nodeOf?_map (fun n => if n.nid = s then { n with targets := n.targets ++ [t] } else n)
    (fun n => by by_cases h : n.nid = s <;> simp [h]) st.nodes x

lemma idsOf_addEdge (st : DAGSt) (s t : Nat) :
    idsOf (DAG.addEdge st s t).nodes = idsOf st.nodes :=
  idsOf_map_pres (fun n => if n.nid = s then { n with targets := n.targets ++ [t] } else n)
    (fun n => by by_cases h : n.nid = s <;> simp [h]) st.nodes

lemma valuesOf_addEdge (st : DAGSt) (s t : Nat) :
    valuesOf (DAG.addEdge st s t).nodes = valuesOf st.nodes :=
  valuesOf_map_pres (fun n => if n.nid = s then { n with targets := n.targets ++ [t] } else n)
    (fun n => by by_cases h : n.nid = s <;> simp [h]) st.nodes

lemma scoreOfN_addEdge (st : DAGSt) (s t x : Nat) :
    scoreOfN (DAG.addEdge st s t).nodes x = scoreOfN st.nodes x := by
  rw [scoreOfN, nodeOf?_addEdge]
  cases h : nodeOf? st.nodes x with
  | none => simp [scoreOfN, h]
  | some n => by_cases hns : n.nid = s <;> simp [scoreOfN, h, hns]

lemma targetsOfN_addEdge_ne {st : DAGSt} {s t x : Nat} (hx : x ≠ s) :
    targetsOfN (DAG.addEdge st s t).nodes x = targetsOfN st.nodes x := by
  rw [targetsOfN, nodeOf?_addEdge]
  cases h : nodeOf? st.nodes x with
  | none => simp [targetsOfN, h]
  | some n =>
    have hnx := (nodeOf?_spec h).2
    simp [targetsOfN, h, hnx, hx]

lemma targetsOfN_addEdge_self {st : DAGSt} {s : Nat} {n : DNode}
    (h : nodeOf? st.nodes s = some n) (t : Nat) :
    targetsOfN (DAG.addEdge st s t).nodes s = targetsOfN st.nodes s ++ [t] := by
  have hns := (nodeOf?_spec h).2
  rw [targetsOfN, nodeOf?_addEdge, h]
  simp [targetsOfN, h, hns]

lemma targetsOfN_addEdge_none {st : DAGSt} {s : Nat}
    (h : nodeOf? st.nodes s = none) (t : Nat) :
    targetsOfN (DAG.addEdge st s t).nodes s = [] := by
  rw [targetsOfN, nodeOf?_addEdge, h]
  rfl

lemma estep_addEdge {st : DAGSt} {s t a b : Nat} :
    Estep (DAG.addEdge st s t).nodes a b ↔
      (Estep st.nodes a b ∨ (a = s ∧ b = t ∧ (nodeOf? st.nodes s).isSome)) := by
  by_cases ha : a = s
  · subst ha
    cases h : nodeOf? st.nodes a with
    | none =>
      rw [Estep, targetsOfN_addEdge_none h]
      have htg : targetsOfN st.nodes a = [] := by rw [targetsOfN, h]; rfl
      simp [Estep, htg, h]
    | some n =>
      rw [Estep, targetsOfN_addEdge_self h t]
      simp [Estep, h, List.mem_append, or_comm, eq_comm]
  · rw [Estep, targetsOfN_addEdge_ne ha, Estep]
    simp [ha]

lemma rtg_addEdge_decomp {st : DAGSt} {s t a b : Nat} (hnr : ¬ Reaches st.nodes t s)
    (h : Relation.ReflTransGen (Estep (DAG.addEdge st s t).nodes) a b) :
    Reaches st.nodes a b ∨ (Reaches st.nodes a s ∧ Reaches st.nodes t b) := by
  induction h with
  | refl => exact Or.inl Relation.ReflTransGen.refl
  | tail hab hbc ih =>
    rcases estep_addEdge.mp hbc with hstep | ⟨rfl, rfl, _⟩
    · rcases ih with h1 | ⟨h1, h2⟩
      · exact Or.inl (h1.tail hstep)
      · exact Or.inr ⟨h1, h2.tail hstep⟩
    · rcases ih with h1 | ⟨h1, h2⟩
      · exact Or.inr ⟨h1, Relation.ReflTransGen.refl⟩
      · exact absurd h2 hnr

/-- Adding an edge whose reverse direction is unreachable keeps the
graph acyclic: this is exactly what the cycle check of `DAG::link`
establishes before the edge is pushed. -/
lemma acyclic_addEdge {st : DAGSt} {s t : Nat} (hacyc : Acyclic st.nodes)
    (hnr : ¬ Reaches st.nodes t s) : Acyclic (DAG.addEdge st s t).nodes := by
  intro x htg
  rcases (Relation.TransGen.head'_iff).mp htg with ⟨y, hxy, hyx⟩
  rcases estep_addEdge.mp hxy with hstep | ⟨rfl, rfl, _⟩
  · rcases rtg_addEdge_decomp hnr hyx with h1 | ⟨h1, h2⟩
    · exact hacyc x (Relation.TransGen.head' hstep h1)
    · exact hnr ((h2.tail hstep).trans h1)
  · rcases rtg_addEdge_decomp hnr hyx with h1 | ⟨h1, _⟩
    · exact hnr h1
    · exact hnr h1

lemma W_pos : 0 < W := by norm_num [W]

lemma one_lt_W : 1 < W := by norm_num [W]

lemma wadd_lt (a b : Nat) : wadd a b < W := Nat.mod_lt _ W_pos

lemma wsub_lt (a b : Nat) : wsub a b < W := Nat.mod_lt _ W_pos

lemma iter_step_lt {step : Nat → Nat} (hstep : ∀ a, step a < W) {x : Nat} (h0 : x < W) :
    ∀ k, step^[k] x < W := by
  intro k
  induction k with
  | zero => exact h0
  | succ k ih =>
    rw [Function.iterate_succ_apply']
    exact hstep _

lemma acyclic_mono {nodes nodes' : List DNode}
    (h : ∀ a b, Estep nodes' a b → Estep nodes a b) (hacyc : Acyclic nodes) :
    Acyclic nodes' :=
  fun x htg => hacyc x (htg.mono h)

lemma acyclic_congr {nodes nodes' : List DNode}
    (h : ∀ x, targetsOfN nodes' x = targetsOfN nodes x) (hacyc : Acyclic nodes) :
    Acyclic nodes' :=
  acyclic_mono (fun a b hab => by rwa [Estep, h a] at hab) hacyc

lemma wf_congr {st st' : DAGSt} (hn : st'.nodes = st.nodes) (hi : st'.nextId = st.nextId)
    (hwf : WF st) : WF st' := by
  cases st'
  cases st
  cases hn
  cases hi
  exact hwf

/-- Well-formedness survives the raw edge insertion of `link`, provided
the cycle check passed and the target is a node of the graph. -/
lemma wf_addEdge {st : DAGSt} {s t : Nat} (hwf : WF st) (ht : t ∈ idsOf st.nodes)
    (hnr : ¬ Reaches st.nodes t s) : WF (DAG.addEdge st s t) := by
  refine ⟨?_, ?_, ?_, ?_, ?_, acyclic_addEdge hwf.acyclic hnr⟩
  · have h := idsOf_addEdge st s t
    unfold idsOf at h
    rw [h]
    exact hwf.nidsNodup
  · intro n hn u hu
    rcases List.mem_map.mp hn with ⟨m, hm, rfl⟩
    rw [idsOf_addEdge]
    by_cases hms : m.nid = s
    · simp only [hms, if_pos] at hu
      simp only [List.mem_append, List.mem_singleton] at hu
      rcases hu with hu | rfl
      · exact hwf.closed m hm u hu
      · exact ht
    · simp only [hms, if_neg, not_false_iff] at hu
      exact hwf.closed m hm u hu
  · intro n hn
    rcases List.mem_map.mp hn with ⟨m, hm, rfl⟩
    have := hwf.bounded m hm
    by_cases hms : m.nid = s <;> simpa [hms] using this
  · have h := valuesOf_addEdge st s t
    unfold valuesOf at h
    rw [h]
    exact hwf.valsNodup
  · intro n hn
    rcases List.mem_map.mp hn with ⟨m, hm, rfl⟩
    have := hwf.scoresLt m hm
    by_cases hms : m.nid = s <;> simpa [hms] using this

/-- Well-formedness of the state built at the end of `link` / `unlink`:
any permutation of a score-update of a well-formed graph, with the same
allocation counter, is well-formed, provided the score update cannot
overflow out of range. -/
lemma wf_post {base : DAGSt} (hwf : WF base) (l : List Nat) (step : Nat → Nat)
    (hstep : ∀ a, step a < W) {st' : DAGSt}
    (hperm : st'.nodes.Perm (applyVisits base.nodes l step))
    (hid : st'.nextId = base.nextId) : WF st' := by
  have hids : (applyVisits base.nodes l step).map DNode.nid = base.nodes.map DNode.nid := by
    have := idsOf_applyVisits base.nodes l step
    unfold idsOf at this
    exact this
  have hmem : ∀ n ∈ st'.nodes, ∃ m ∈ base.nodes,
      n = { m with score := step^[l.count m.nid] m.score } := by
    intro n hn
    have hn2 : n ∈ applyVisits base.nodes l step := (hperm.mem_iff).mp hn
    rcases List.mem_map.mp hn2 with ⟨m, hm, rfl⟩
    exact ⟨m, hm, rfl⟩
  have hvals : valuesOf (applyVisits base.nodes l step) = valuesOf base.nodes := by
    unfold applyVisits
    exact valuesOf_map_pres (fun n => { n with score := step^[l.count n.nid] n.score })
      (fun _ => rfl) base.nodes
  refine ⟨?_, ?_, ?_, ?_, ?_, ?_⟩
  · have h := (hperm.map DNode.nid).nodup_iff
    rw [hids] at h
    exact h.mpr hwf.nidsNodup
  · intro n hn u hu
    rcases hmem n hn with ⟨m, hm, rfl⟩
    have h1 : u ∈ idsOf base.nodes := hwf.closed m hm u hu
    have h2 : u ∈ (applyVisits base.nodes l step).map DNode.nid := by
      rw [hids]
      exact h1
    exact ((hperm.map DNode.nid).mem_iff).mpr h2
  · intro n hn
    rcases hmem n hn with ⟨m, hm, rfl⟩
    rw [hid]
    exact hwf.bounded m hm
  · have h := (hperm.map DNode.value).nodup_iff
    unfold valuesOf at hvals
    rw [hvals] at h
    exact h.mpr hwf.valsNodup
  · intro n hn
    rcases hmem n hn with ⟨m, hm, rfl⟩
    exact iter_step_lt hstep (hwf.scoresLt m hm) _
  · have hnd : ((applyVisits base.nodes l step).map DNode.nid).Nodup := by
      rw [hids]
      exact hwf.nidsNodup
    apply acyclic_congr (fun x => ?_) hwf.acyclic
    rw [targetsOfN_perm hperm.symm hnd x, targetsOfN_applyVisits]

lemma targetsOfN_post {base nodes' : List DNode} (hnd : (base.map DNode.nid).Nodup)
    {l : List Nat} {step : Nat → Nat} (hperm : nodes'.Perm (applyVisits base l step)) (x : Nat) :
    targetsOfN nodes' x = targetsOfN base x := by
  have hnd2 : ((applyVisits base l step).map DNode.nid).Nodup := by
    have h := idsOf_applyVisits base l step
    unfold idsOf at h
    rw [h]
    exact hnd
  rw [targetsOfN_perm hperm.symm hnd2 x, targetsOfN_applyVisits]

lemma scoreOfN_post {base nodes' : List DNode} (hnd : (base.map DNode.nid).Nodup)
    {l : List Nat} {step : Nat → Nat} (hperm : nodes'.Perm (applyVisits base l step)) (x : Nat) :
    scoreOfN nodes' x = scoreOfN (applyVisits base l step) x := by
  have hnd2 : ((applyVisits base l step).map DNode.nid).Nodup := by
    have h := idsOf_applyVisits base l step
    unfold idsOf at h
    rw [h]
    exact hnd
  exact scoreOfN_perm hperm.symm hnd2 x

/-- `DAG::link` throws `CircularReference` exactly when the source is
already reachable from the target (in particular when they coincide). -/
theorem link_none_iff {st : DAGSt} (hacyc : Acyclic st.nodes) (s t : Nat) :
    (DAG.link st s t = none ↔ Reaches st.nodes t s) := by
  cases hchk : visitNodeF (fuelOf st) st.nodes [s] t with
  | error e =>
    cases e
    exact iff_of_true (by simp [DAG.link, hchk]) ((visit_check_iff hacyc s t).mp hchk)
  | ok l0 =>
    have hnr : ¬ Reaches st.nodes t s := fun hr =>
      absurd ((visit_check_iff hacyc s t).mpr hr) (by simp [hchk])
    obtain ⟨l, hl, _, _⟩ := visit_empty_ok (acyclic_addEdge hacyc hnr) t
    exact iff_of_false (by simp [DAG.link, hchk, hl]) hnr

/-- Characterisation of a successful `DAG::link`: the cycle check
passed, and the new state is the edge-extended graph with the source's
score added once per visit to every node reachable from the target,
re-sorted by score. -/
theorem link_some_spec {st : DAGSt} (hacyc : Acyclic st.nodes) {s t : Nat} {st' : DAGSt}
    (h : DAG.link st s t = some st') :
    ¬ Reaches st.nodes t s ∧
    ∃ l, (∀ y, (y ∈ l ↔ Reaches (DAG.addEdge st s t).nodes t y)) ∧ l.count t = 1 ∧
      st'.nodes = sortByScore (applyVisits (DAG.addEdge st s t).nodes l
          (fun sc => wadd sc (scoreOfN (DAG.addEdge st s t).nodes s))) ∧
      st'.nextId = st.nextId := by
  cases hchk : visitNodeF (fuelOf st) st.nodes [s] t with
  | error e =>
    cases e
    simp [DAG.link, hchk] at h
  | ok l0 =>
    have hnr : ¬ Reaches st.nodes t s := fun hr =>
      absurd ((visit_check_iff hacyc s t).mpr hr) (by simp [hchk])
    obtain ⟨l, hl, hmem, hcnt⟩ := visit_empty_ok (acyclic_addEdge hacyc hnr) t
    have hY : DAG.link st s t = some
        { DAG.addEdge st s t with
          nodes := sortByScore (applyVisits (DAG.addEdge st s t).nodes l
            (fun sc => wadd sc (scoreOfN (DAG.addEdge st s t).nodes s))) } := by
      simp [DAG.link, hchk, hl]
    rw [hY] at h
    have hst : st' = { DAG.addEdge st s t with
        nodes := sortByScore (applyVisits (DAG.addEdge st s t).nodes l
          (fun sc => wadd sc (scoreOfN (DAG.addEdge st s t).nodes s))) } := (Option.some.inj h).symm
    exact ⟨hnr, l, hmem, hcnt, by rw [hst], by rw [hst]; rfl⟩

/-- A successful `link` preserves well-formedness. -/
theorem link_wf {st : DAGSt} {s t : Nat} {st' : DAGSt} (hwf : WF st)
    (ht : t ∈ idsOf st.nodes) (h : DAG.link st s t = some st') : WF st' := by
  obtain ⟨hnr, l, hmem, hcnt, hnodes, hnext⟩ := link_some_spec hwf.acyclic h
  have hwf1 : WF (DAG.addEdge st s t) := wf_addEdge hwf ht hnr
  exact wf_post hwf1 l (fun sc => wadd sc (scoreOfN (DAG.addEdge st s t).nodes s))
    (fun a => wadd_lt a _) (by rw [hnodes]; exact List.perm_insertionSort _ _) hnext

/-- A successful `link` changes no edges other than adding source to
target. -/
theorem link_targets {st : DAGSt} {s t : Nat} {st' : DAGSt} (hwf : WF st)
    (h : DAG.link st s t = some st') :
    ∀ x, targetsOfN st'.nodes x = targetsOfN (DAG.addEdge st s t).nodes x := by
  obtain ⟨hnr, l, hmem, hcnt, hnodes, hnext⟩ := link_some_spec hwf.acyclic h
  intro x
  have hnd : ((DAG.addEdge st s t).nodes.map DNode.nid).Nodup := by
    have hh := idsOf_addEdge st s t
    unfold idsOf at hh
    rw [hh]
    exact hwf.nidsNodup
  exact targetsOfN_post hnd (by rw [hnodes]; exact List.perm_insertionSort _ _) x

lemma nodeOf?_cons (nn : DNode) (nodes : List DNode) (x : Nat) :
    nodeOf? (nn :: nodes) x = if nn.nid = x then some nn else nodeOf? nodes x := by
  by_cases h : nn.nid = x
  · rw [nodeOf?, List.find?_cons_of_pos _ (by simp [h]), if_pos h]
  · rw [nodeOf?, List.find?_cons_of_neg _ (by simp [h]), if_neg h]
    rfl

lemma insert_already {st : DAGSt} {v : Int} (h : ∃ n ∈ st.nodes, n.value = v) :
    DAG.insert st v = (st, false) := by
  rcases h with ⟨n, hn, hv⟩
  have : st.nodes.any (fun n => n.value == v) = true := by
    rw [List.any_eq_true]
    exact ⟨n, hn, by simp [hv]⟩
  simp [DAG.insert, this]

lemma insert_new {st : DAGSt} {v : Int} (h : ∀ n ∈ st.nodes, n.value ≠ v) :
    DAG.insert st v =
      ({ nodes := ⟨st.nextId, v, 1, []⟩ :: st.nodes, nextId := st.nextId + 1 }, true) := by
  have : st.nodes.any (fun n => n.value == v) = false := by
    rw [List.any_eq_false]
    intro n hn
    simp [h n hn]
  simp [DAG.insert, this]

lemma nextId_not_mem {st : DAGSt} (hwf : WF st) : st.nextId ∉ idsOf st.nodes := by
  intro hmem
  rcases List.mem_map.mp hmem with ⟨m, hm, hx⟩
  exact absurd (hx ▸ hwf.bounded m hm) (lt_irrefl _)

/-- `DAG::insert` preserves well-formedness. -/
theorem wf_insert {st : DAGSt} (hwf : WF st) (v : Int) : WF (DAG.insert st v).1 := by
  by_cases h : ∃ n ∈ st.nodes, n.value = v
  · rw [insert_already h]
    exact hwf
  · push_neg at h
    rw [insert_new h]
    have hfresh : st.nextId ∉ idsOf st.nodes := nextId_not_mem hwf
    refine ⟨?_, ?_, ?_, ?_, ?_, ?_⟩
    · rw [List.map_cons, List.nodup_cons]
      exact ⟨by simpa [idsOf] using hfresh, hwf.nidsNodup⟩
    · intro n hn u hu
      rcases List.mem_cons.mp hn with rfl | hn2
      · exact absurd hu (List.not_mem_nil u)
      · have := hwf.closed n hn2 u hu
        simp only [idsOf, List.map_cons]
        exact List.mem_cons_of_mem _ (by simpa [idsOf] using this)
    · intro n hn
      rcases List.mem_cons.mp hn with rfl | hn2
      · exact Nat.lt_succ_self _
      · exact Nat.lt_succ_of_lt (hwf.bounded n hn2)
    · rw [List.map_cons, List.nodup_cons]
      refine ⟨?_, hwf.valsNodup⟩
      intro hmem
      rcases List.mem_map.mp hmem with ⟨m, hm, hv⟩
      exact h m hm hv
    · intro n hn
      rcases List.mem_cons.mp hn with rfl | hn2
      · exact one_lt_W
      · exact hwf.scoresLt n hn2
    · apply acyclic_mono (fun a b hab => ?_) hwf.acyclic
      rw [Estep, targetsOfN, nodeOf?_cons] at hab
      by_cases ha : st.nextId = a
      · simp [ha] at hab
      · rw [if_neg ha] at hab
        exact hab

lemma nodeOf?_removeEdge (st : DAGSt) (s t x : Nat) :
    nodeOf? (DAG.removeEdge st s t).nodes x
      = (nodeOf? st.nodes x).map
          (fun n => if n.nid = s then { n with targets := n.targets.erase t } else n) :=
  nodeOf?_map (fun n => if n.nid = s then { n with targets := n.targets.erase t } else n)
    (fun n => by by_cases h : n.nid = s <;> simp [h]) st.nodes x

lemma idsOf_removeEdge (st : DAGSt) (s t : Nat) :
    idsOf (DAG.removeEdge st s t).nodes = idsOf st.nodes :=
  idsOf_map_pres (fun n => if n.nid = s then { n with targets := n.targets.erase t } else n)
    (fun n => by by_cases h : n.nid = s <;> simp [h]) st.nodes

lemma valuesOf_removeEdge (st : DAGSt) (s t : Nat) :
    valuesOf (DAG.removeEdge st s t).nodes = valuesOf st.nodes :=
  valuesOf_map_pres (fun n => if n.nid = s then { n with targets := n.targets.erase t } else n)
    (fun n => by by_cases h : n.nid = s <;> simp [h]) st.nodes

lemma scoreOfN_removeEdge (st : DAGSt) (s t x : Nat) :
    scoreOfN (DAG.removeEdge st s t).nodes x = scoreOfN st.nodes x := by
  rw [scoreOfN, nodeOf?_removeEdge]
  cases h : nodeOf? st.nodes x with
  | none => simp [scoreOfN, h]
  | some n => by_cases hns : n.nid = s <;> simp [scoreOfN, h, hns]

lemma targetsOfN_removeEdge_ne {st : DAGSt} {s t x : Nat} (hx : x ≠ s) :
    targetsOfN (DAG.removeEdge st s t).nodes x = targetsOfN st.nodes x := by
  rw [targetsOfN, nodeOf?_removeEdge]
  cases h : nodeOf? st.nodes x with
  | none => simp [targetsOfN, h]
  | some n =>
    have hnx := (nodeOf?_spec h).2
    simp [targetsOfN, h, hnx, hx]

lemma targetsOfN_removeEdge_self (st : DAGSt) (s t : Nat) :
    targetsOfN (DAG.removeEdge st s t).nodes s = (targetsOfN st.nodes s).erase t := by
  rw [targetsOfN, nodeOf?_removeEdge]
  cases h : nodeOf? st.nodes s with
  | none => simp [targetsOfN, h]
  | some n =>
    have hns := (nodeOf?_spec h).2
    simp [targetsOfN, h, hns]

lemma estep_removeEdge_sub {st : DAGSt} {s t a b : Nat}
    (h : Estep (DAG.removeEdge st s t).nodes a b) : Estep st.nodes a b := by
  by_cases ha : a = s
  · subst ha
    rw [Estep, targetsOfN_removeEdge_self] at h
    exact List.mem_of_mem_erase h
  · rwa [Estep, targetsOfN_removeEdge_ne ha] at h

/-- Removing an edge preserves well-formedness (removing an edge can
never introduce a cycle). -/
theorem wf_removeEdge {st : DAGSt} (hwf : WF st) (s t : Nat) : WF (DAG.removeEdge st s t) := by
  refine ⟨?_, ?_, ?_, ?_, ?_, acyclic_mono (fun a b => estep_removeEdge_sub) hwf.acyclic⟩
  · have h := idsOf_removeEdge st s t
    unfold idsOf at h
    rw [h]
    exact hwf.nidsNodup
  · intro n hn u hu
    rcases List.mem_map.mp hn with ⟨m, hm, rfl⟩
    rw [idsOf_removeEdge]
    by_cases hms : m.nid = s
    · simp only [hms, if_pos] at hu
      exact hwf.closed m hm u (List.mem_of_mem_erase hu)
    · simp only [hms, if_neg, not_false_iff] at hu
      exact hwf.closed m hm u hu
  · intro n hn
    rcases List.mem_map.mp hn with ⟨m, hm, rfl⟩
    have := hwf.bounded m hm
    by_cases hms : m.nid = s <;> simpa [hms] using this
  · have h := valuesOf_removeEdge st s t
    unfold valuesOf at h
    rw [h]
    exact hwf.valsNodup
  · intro n hn
    rcases List.mem_map.mp hn with ⟨m, hm, rfl⟩
    have := hwf.scoresLt m hm
    by_cases hms : m.nid = s <;> simpa [hms] using this

/-- The state of the graph after the conditional edge removal inside
`DAG::unlink`, before the score propagation. -/
def DAG.unlinkBase (st : DAGSt) (s t : Nat) : DAGSt :=
  if t ∈ targetsOfN st.nodes s then DAG.removeEdge st s t else st

lemma wf_unlinkBase {st : DAGSt} (hwf : WF st) (s t : Nat) : WF (DAG.unlinkBase st s t) := by
  unfold DAG.unlinkBase
  split
  · exact wf_removeEdge hwf s t
  · exact hwf

lemma estep_unlinkBase_sub {st : DAGSt} {s t a b : Nat}
    (h : Estep (DAG.unlinkBase st s t).nodes a b) : Estep st.nodes a b := by
  unfold DAG.unlinkBase at h
  split at h
  · exact estep_removeEdge_sub h
  · exact h

lemma unlinkBase_nextId (st : DAGSt) (s t : Nat) :
    (DAG.unlinkBase st s t).nextId = st.nextId := by
  unfold DAG.unlinkBase
  split <;> rfl

/-- Characterisation of `DAG::unlink`: the returned flag records whether
the edge was present, and the final state is the (conditionally)
edge-removed graph with the source's score subtracted once per visit to
every node reachable from the target, sorted by node address. -/
theorem unlink_spec {st : DAGSt} (hwf : WF st) (s t : Nat) :
    ∃ l, (∀ y, (y ∈ l ↔ Reaches (DAG.unlinkBase st s t).nodes t y)) ∧ l.count t = 1 ∧
      DAG.unlink st s t =
        (⟨sortByNid (applyVisits (DAG.unlinkBase st s t).nodes l
            (fun sc => wsub sc (scoreOfN (DAG.unlinkBase st s t).nodes s))), st.nextId⟩,
          decide (t ∈ targetsOfN st.nodes s)) := by
  have hacyc1 : Acyclic (DAG.unlinkBase st s t).nodes := (wf_unlinkBase hwf s t).acyclic
  obtain ⟨l, hl, hmem, hcnt⟩ := visit_empty_ok hacyc1 t
  refine ⟨l, hmem, hcnt, ?_⟩
  show DAG.unlink st s t = _
  by_cases hp : t ∈ targetsOfN st.nodes s
  · have hb : DAG.unlinkBase st s t = DAG.removeEdge st s t := if_pos hp
    rw [hb] at hl ⊢
    simp only [DAG.unlink, if_pos hp, hl]
    simp [hp, DAG.removeEdge]
  · have hb : DAG.unlinkBase st s t = st := if_neg hp
    rw [hb] at hl ⊢
    simp only [DAG.unlink, if_neg hp, hl]

/-- `DAG::unlink` preserves well-formedness. -/
theorem unlink_wf {st : DAGSt} (hwf : WF st) (s t : Nat) : WF (DAG.unlink st s t).1 := by
  obtain ⟨l, hmem, hcnt, heq⟩ := unlink_spec hwf s t
  rw [heq]
  exact wf_post (wf_unlinkBase hwf s t) l
    (fun sc => wsub sc (scoreOfN (DAG.unlinkBase st s t).nodes s)) (fun a => wsub_lt a _)
    (List.perm_insertionSort _ _) (unlinkBase_nextId st s t).symm

/-- `DAG::unlink` only removes edges. -/
theorem unlink_targets {st : DAGSt} (hwf : WF st) (s t : Nat) :
    ∀ x, targetsOfN (DAG.unlink st s t).1.nodes x = targetsOfN (DAG.unlinkBase st s t).nodes x := by
  obtain ⟨l, hmem, hcnt, heq⟩ := unlink_spec hwf s t
  intro x
  rw [heq]
  exact targetsOfN_post (wf_unlinkBase hwf s t).nidsNodup (List.perm_insertionSort _ _) x

theorem estep_unlink_sub {st : DAGSt} (hwf : WF st) {s t a b : Nat}
    (h : Estep (DAG.unlink st s t).1.nodes a b) : Estep st.nodes a b := by
  rw [Estep, unlink_targets hwf s t] at h
  exact estep_unlinkBase_sub h

lemma nodeOf?_filter_stable {l : List DNode} (hnd : (l.map DNode.nid).Nodup)
    {p : DNode → Bool} {y : Nat} (hp : ∀ n ∈ l, n.nid = y → p n = true) :
    nodeOf? (l.filter p) y = nodeOf? l y := by
  cases h : nodeOf? l y with
  | none =>
    rw [nodeOf?_eq_none] at h ⊢
    intro hmem
    apply h
    rcases List.mem_map.mp hmem with ⟨m, hm, hmy⟩
    exact List.mem_map.mpr ⟨m, List.mem_of_mem_filter hm, hmy⟩
  | some n =>
    rcases nodeOf?_spec h with ⟨hm, hy⟩
    have hnf : n ∈ l.filter p := List.mem_filter.mpr ⟨hm, hp n hm hy⟩
    have hnd2 : ((l.filter p).map DNode.nid).Nodup :=
      hnd.sublist ((List.filter_sublist l).map DNode.nid)
    exact hy ▸ nodeOf?_of_mem hnd2 hnf

lemma nodeOf?_filter_out {l : List DNode} {p : DNode → Bool} {y : Nat}
    (hp : ∀ n ∈ l, p n = true → n.nid ≠ y) :
    nodeOf? (l.filter p) y = none := by
  rw [nodeOf?_eq_none]
  intro hmem
  rcases List.mem_map.mp hmem with ⟨m, hm, hmy⟩
  rcases List.mem_filter.mp hm with ⟨hml, hpm⟩
  exact hp m hml hpm hmy

lemma unlinkBase_ids (st : DAGSt) (s t : Nat) :
    idsOf (DAG.unlinkBase st s t).nodes = idsOf st.nodes := by
  unfold DAG.unlinkBase
  split
  · exact idsOf_removeEdge st s t
  · rfl

lemma unlinkBase_values (st : DAGSt) (s t : Nat) :
    valuesOf (DAG.unlinkBase st s t).nodes = valuesOf st.nodes := by
  unfold DAG.unlinkBase
  split
  · exact valuesOf_removeEdge st s t
  · rfl

/-- Bundled facts about one `unlink` call: well-formedness, allocation
counter, node identifiers and stored values are all preserved. -/
lemma unlink_facts {st : DAGSt} (hwf : WF st) (s t : Nat) :
    WF (DAG.unlink st s t).1 ∧ (DAG.unlink st s t).1.nextId = st.nextId ∧
      (idsOf (DAG.unlink st s t).1.nodes).Perm (idsOf st.nodes) ∧
      (valuesOf (DAG.unlink st s t).1.nodes).Perm (valuesOf st.nodes) := by
  obtain ⟨l, hmem, hcnt, heq⟩ := unlink_spec hwf s t
  refine ⟨unlink_wf hwf s t, ?_, ?_, ?_⟩
  · rw [heq]
  · rw [heq]
    have h1 : (idsOf (sortByNid (applyVisits (DAG.unlinkBase st s t).nodes l
        (fun sc => wsub sc (scoreOfN (DAG.unlinkBase st s t).nodes s))))).Perm
        (idsOf (applyVisits (DAG.unlinkBase st s t).nodes l
          (fun sc => wsub sc (scoreOfN (DAG.unlinkBase st s t).nodes s)))) :=
      (List.perm_insertionSort _ _).map DNode.nid
    rw [idsOf_applyVisits, unlinkBase_ids] at h1
    exact h1
  · rw [heq]
    have h1 : (valuesOf (sortByNid (applyVisits (DAG.unlinkBase st s t).nodes l
        (fun sc => wsub sc (scoreOfN (DAG.unlinkBase st s t).nodes s))))).Perm
        (valuesOf (applyVisits (DAG.unlinkBase st s t).nodes l
          (fun sc => wsub sc (scoreOfN (DAG.unlinkBase st s t).nodes s)))) :=
      (List.perm_insertionSort _ _).map DNode.value
    have hvals : valuesOf (applyVisits (DAG.unlinkBase st s t).nodes l
        (fun sc => wsub sc (scoreOfN (DAG.unlinkBase st s t).nodes s)))
        = valuesOf (DAG.unlinkBase st s t).nodes := by
      unfold applyVisits
      exact valuesOf_map_pres
        (fun n => { n with score :=
          (fun sc => wsub sc (scoreOfN (DAG.unlinkBase st s t).nodes s))^[l.count n.nid] n.score })
        (fun _ => rfl) _
    rw [hvals, unlinkBase_values] at h1
    exact h1

lemma eraseOutLoop_facts :
    ∀ (fuel : Nat) (st : DAGSt) (x : Nat), WF st →
      WF (eraseOutLoop fuel st x) ∧ (eraseOutLoop fuel st x).nextId = st.nextId ∧
        (idsOf (eraseOutLoop fuel st x).nodes).Perm (idsOf st.nodes) ∧
        (valuesOf (eraseOutLoop fuel st x).nodes).Perm (valuesOf st.nodes) ∧
        (∀ a b, Estep (eraseOutLoop fuel st x).nodes a b → Estep st.nodes a b) := by
  intro fuel
  induction fuel with
  | zero =>
    intro st x hwf
    exact ⟨hwf, rfl, List.Perm.refl _, List.Perm.refl _, fun a b h => h⟩
  | succ fuel ih =>
    intro st x hwf
    show _ ∧ _
    unfold eraseOutLoop
    cases htg : targetsOfN st.nodes x with
    | nil => exact ⟨hwf, rfl, List.Perm.refl _, List.Perm.refl _, fun a b h => h⟩
    | cons t ts =>
      obtain ⟨hwf1, hnext1, hids1, hvals1⟩ := unlink_facts hwf x t
      obtain ⟨hwf2, hnext2, hids2, hvals2, hest2⟩ := ih (DAG.unlink st x t).1 x hwf1
      exact ⟨hwf2, by rw [hnext2, hnext1], hids2.trans hids1, hvals2.trans hvals1,
        fun a b h => estep_unlink_sub hwf (hest2 a b h)⟩

lemma eraseN_nodes (st : DAGSt) (x : Nat) :
    (DAG.eraseN st x).nodes
      = ((eraseOutLoop (targetsOfN st.nodes x).length st x).nodes.filter
          fun n => n.nid ≠ x).map fun n =>
            { n with targets := n.targets.filter fun t => t ≠ x } := rfl

lemma eraseN_nextId {st : DAGSt} (hwf : WF st) (x : Nat) :
    (DAG.eraseN st x).nextId = st.nextId := by
  have h := (eraseOutLoop_facts (targetsOfN st.nodes x).length st x hwf).2.1
  exact h

lemma nodeOf?_eraseN_self (st : DAGSt) (x : Nat) :
    nodeOf? (DAG.eraseN st x).nodes x = none := by
  rw [eraseN_nodes,
    nodeOf?_map (fun n => { n with targets := n.targets.filter fun t => t ≠ x })
      (fun _ => rfl),
    nodeOf?_filter_out (fun n _ h => by simpa using h)]
  rfl

lemma nodeOf?_eraseN_ne {st : DAGSt} (hwf : WF st) {x y : Nat} (hyx : y ≠ x) :
    nodeOf? (DAG.eraseN st x).nodes y
      = (nodeOf? (eraseOutLoop (targetsOfN st.nodes x).length st x).nodes y).map
          (fun n => { n with targets := n.targets.filter fun t => t ≠ x }) := by
  have hwf1 := (eraseOutLoop_facts (targetsOfN st.nodes x).length st x hwf).1
  rw [eraseN_nodes,
    nodeOf?_map (fun n => { n with targets := n.targets.filter fun t => t ≠ x })
      (fun _ => rfl),
    nodeOf?_filter_stable hwf1.nidsNodup (fun n _ hny => by simp [hny, hyx])]

/-- `DAG::erase` preserves well-formedness. -/
theorem wf_eraseN {st : DAGSt} (hwf : WF st) (x : Nat) : WF (DAG.eraseN st x) := by
  obtain ⟨hwf1, hnext1, hids1, hvals1, hest1⟩ :=
    eraseOutLoop_facts (targetsOfN st.nodes x).length st x hwf
  set st1 := eraseOutLoop (targetsOfN st.nodes x).length st x with hst1
  have hsub : ((st1.nodes.filter fun n => n.nid ≠ x).map fun n =>
      { n with targets := n.targets.filter fun t => t ≠ x }).map DNode.nid
      = (st1.nodes.filter fun n => n.nid ≠ x).map DNode.nid := by
    rw [List.map_map]
    exact List.map_congr_left (fun n _ => rfl)
  have hmem : ∀ n ∈ (DAG.eraseN st x).nodes, ∃ m ∈ st1.nodes,
      m.nid ≠ x ∧ n = { m with targets := m.targets.filter fun t => t ≠ x } := by
    intro n hn
    rw [eraseN_nodes] at hn
    rcases List.mem_map.mp hn with ⟨m, hm, rfl⟩
    rcases List.mem_filter.mp hm with ⟨hml, hmx⟩
    exact ⟨m, hml, by simpa using hmx, rfl⟩
  refine ⟨?_, ?_, ?_, ?_, ?_, ?_⟩
  · rw [eraseN_nodes, hsub]
    exact hwf1.nidsNodup.sublist ((List.filter_sublist st1.nodes).map DNode.nid)
  · intro n hn u hu
    rcases hmem n hn with ⟨m, hm, hmx, rfl⟩
    simp only [List.mem_filter] at hu
    rcases hu with ⟨hu1, hu2⟩
    have hux : u ≠ x := by simpa using hu2
    have hu3 : u ∈ idsOf st1.nodes := hwf1.closed m hm u hu1
    rcases List.mem_map.mp hu3 with ⟨k, hk, hku⟩
    have hkf : k ∈ st1.nodes.filter fun n => n.nid ≠ x :=
      List.mem_filter.mpr ⟨hk, by simp [hku, hux]⟩
    rw [eraseN_nodes]
    unfold idsOf
    rw [hsub]
    exact List.mem_map.mpr ⟨k, hkf, hku⟩
  · intro n hn
    rcases hmem n hn with ⟨m, hm, hmx, rfl⟩
    rw [eraseN_nextId hwf x]
    rw [← hnext1]
    exact hwf1.bounded m hm
  · rw [eraseN_nodes]
    have hv : (((st1.nodes.filter fun n => n.nid ≠ x).map fun n =>
        { n with targets := n.targets.filter fun t => t ≠ x }).map DNode.value)
        = (st1.nodes.filter fun n => n.nid ≠ x).map DNode.value := by
      rw [List.map_map]
      exact List.map_congr_left (fun n _ => rfl)
    rw [hv]
    exact hwf1.valsNodup.sublist ((List.filter_sublist st1.nodes).map DNode.value)
  · intro n hn
    rcases hmem n hn with ⟨m, hm, hmx, rfl⟩
    exact hwf1.scoresLt m hm
  · apply acyclic_mono (fun a b hab => ?_) hwf1.acyclic
    rw [Estep] at hab
    by_cases hax : a = x
    · subst hax
      rw [targetsOfN, nodeOf?_eraseN_self] at hab
      exact absurd hab (List.not_mem_nil b)
    · rw [targetsOfN, nodeOf?_eraseN_ne hwf hax] at hab
      cases h : nodeOf? st1.nodes a with
      | none => rw [h] at hab; exact absurd hab (List.not_mem_nil b)
      | some m =>
        rw [h] at hab
        simp only [Option.map_some', Option.getD_some] at hab
        have : b ∈ m.targets := List.mem_of_mem_filter hab
        rw [Estep, targetsOfN, h]
        exact this

theorem estep_eraseN_sub {st : DAGSt} (hwf : WF st) {x a b : Nat}
    (h : Estep (DAG.eraseN st x).nodes a b) : Estep st.nodes a b := by
  obtain ⟨hwf1, hnext1, hids1, hvals1, hest1⟩ :=
    eraseOutLoop_facts (targetsOfN st.nodes x).length st x hwf
  apply hest1
  rw [Estep] at h
  by_cases hax : a = x
  · subst hax
    rw [targetsOfN, nodeOf?_eraseN_self] at h
    exact absurd h (List.not_mem_nil b)
  · rw [targetsOfN, nodeOf?_eraseN_ne hwf hax] at h
    cases hm : nodeOf? (eraseOutLoop (targetsOfN st.nodes x).length st x).nodes a with
    | none => rw [hm] at h; exact absurd h (List.not_mem_nil b)
    | some m =>
      rw [hm] at h
      simp only [Option.map_some', Option.getD_some] at h
      rw [Estep, targetsOfN, hm]
      exact List.mem_of_mem_filter h

/-- A DAG with no nodes is well-formed, whatever its allocation
counter. -/
lemma wf_nil (k : Nat) : WF ⟨[], k⟩ := by
  refine ⟨List.nodup_nil, ?_, ?_, List.nodup_nil, ?_, ?_⟩
  · intro n hn
    exact absurd hn (List.not_mem_nil n)
  · intro n hn
    exact absurd hn (List.not_mem_nil n)
  · intro n hn
    exact absurd hn (List.not_mem_nil n)
  · intro x htg
    rcases (Relation.TransGen.head'_iff).mp htg with ⟨y, hxy, _⟩
    rw [Estep, targetsOfN] at hxy
    exact absurd hxy (List.not_mem_nil y)

/-- The empty DAG is well-formed. -/
lemma wf_empty : WF DAG.empty := wf_nil 0

/-- DAG states reachable from the empty DAG by sequences of `insert`,
`link`, `unlink` and `erase` calls on valid iterators.  A `link` call
that throws `CircularReference` leaves the state unchanged (the check
runs before any mutation), so failed links contribute no transition. -/
inductive DReach : DAGSt → Prop
  | empty : DReach DAG.empty
  | insert {st : DAGSt} (v : Int) : DReach st → DReach (DAG.insert st v).1
  | linkOk {st st' : DAGSt} (s t : Nat) : DReach st → s ∈ idsOf st.nodes →
      t ∈ idsOf st.nodes → DAG.link st s t = some st' → DReach st'
  | unlink {st : DAGSt} (s t : Nat) : DReach st → s ∈ idsOf st.nodes →
      t ∈ idsOf st.nodes → DReach (DAG.unlink st s t).1
  | erase {st : DAGSt} (x : Nat) : DReach st → x ∈ idsOf st.nodes → DReach (DAG.eraseN st x)

/-- Every reachable DAG state is well-formed (in particular acyclic). -/
theorem dreach_wf {st : DAGSt} (h : DReach st) : WF st := by
  induction h with
  | empty => exact wf_empty
  | insert v _ ih => exact wf_insert ih v
  | linkOk s t _ hs ht hlink ih => exact link_wf ih ht hlink
  | unlink s t _ hs ht ih => exact unlink_wf ih s t
  | erase x _ hx ih => exact wf_eraseN ih x

lemma wadd_iterate {d x : Nat} (hx : x < W) :
    ∀ k, (fun sc => wadd sc d)^[k] x = (x + k * d) % W := by
  intro k
  induction k with
  | zero => simp [Nat.mod_eq_of_lt hx]
  | succ k ih =>
    rw [Function.iterate_succ_apply', ih]
    show ((x + k * d) % W + d) % W = (x + (k + 1) * d) % W
    rw [Nat.mod_add_mod]
    ring_nf

/-!
The `Depends::Depends` dependency tracker (src/depends.hpp).

Pointer model: `storage_` is a `std::set<V>` whose elements have stable,
pairwise distinct addresses; `getPointer` yields the address of a stored
element, and the two internal `DAG<pointer>` instances store these
pointers as their node values.  Two such pointers are equal exactly when
they come from the same element, i.e. when the stored values are equal,
and dereferencing yields that value; the model therefore identifies the
pointer with the stored value itself.
-/

/-- The state of a `Depends::Depends` tracker: the value store
(`storage_`, a `std::set` in ascending order), the two internal DAGs
(`dependants_` and `prerequisites_`), and the current selection
(`selected_`, null or an iterator to a stored value). -/
structure TrackSt where
  storage : List Int
  dep : DAGSt
  pre : DAGSt
  selected : Option Int
deriving DecidableEq

/-- A default-constructed tracker. -/
def Depends.empty : TrackSt := ⟨[], DAG.empty, DAG.empty, none⟩

/-- `Depends::insert` (src/depends.hpp lines 185-197): insert into the
value store; if an insertion happened, register the new element's
pointer in `prerequisites_` and in `dependants_`. -/
def Depends.insert (st : TrackSt) (v : Int) : TrackSt × Bool :=
  if v ∈ st.storage then (st, false)
  else
    ({ storage := List.orderedInsert (· ≤ ·) v st.storage,
       dep := (DAG.insert st.dep v).1,
       pre := (DAG.insert st.pre v).1,
       selected := st.selected }, true)

/-- `Depends::select(const_iterator)` (src/depends.hpp lines 267-275):
FIRST clear the current selection, then throw `Cannot select end` if the
iterator is the end iterator (`w = none`), else select.  The Bool is
false when the call threw. -/
def Depends.selectIt (st : TrackSt) (w : Option Int) : TrackSt × Bool :=
  let st1 : TrackSt := { st with selected := none }
  match w with
  | none => (st1, false)
  | some v => ({ st1 with selected := some v }, true)

/-- `Depends::select(const value_type &)` (src/depends.hpp lines
279-282): insert the value if absent, then select its iterator. -/
def Depends.selectV (st : TrackSt) (v : Int) : TrackSt :=
  (Depends.selectIt (Depends.insert st v).1 (some v)).1

/-- `Depends::addPrerequisite` (src/depends.hpp lines 285-295, by
value): insert the value if absent, then link selection to value in
`prerequisites_` and value to selection in `dependants_`, in that order.
The Bool is false when a `CircularReference` was thrown (in the source
the exception propagates; the state at that point is returned).  With no
selection the source's `assert(selected_)` fails and the raw pointer
dereference is undefined; that case is modelled as an error with no
further mutation and excluded from the reachable states. -/
def Depends.addPrerequisite (st : TrackSt) (v : Int) : TrackSt × Bool :=
  let st1 := (Depends.insert st v).1
  match st1.selected with
  | none => (st1, false)
  | some s =>
    match DAG.linkV st1.pre s v with
    | .error _ => (st1, false)
    | .ok pre1 =>
      match DAG.linkV st1.dep v s with
      | .error _ => ({ st1 with pre := pre1 }, false)
      | .ok dep1 => ({ st1 with pre := pre1, dep := dep1 }, true)

/-- `Depends::addDependant` (src/depends.hpp lines 359-369, by value):
the mirror image - link selection to value in `dependants_` and value to
selection in `prerequisites_`, in that order. -/
def Depends.addDependant (st : TrackSt) (v : Int) : TrackSt × Bool :=
  let st1 := (Depends.insert st v).1
  match st1.selected with
  | none => (st1, false)
  | some s =>
    match DAG.linkV st1.dep s v with
    | .error _ => (st1, false)
    | .ok dep1 =>
      match DAG.linkV st1.pre v s with
      | .error _ => ({ st1 with dep := dep1 }, false)
      | .ok pre1 => ({ st1 with dep := dep1, pre := pre1 }, true)

/-- `Depends::removePrerequisite` (src/depends.hpp lines 298-314, by
value): look the value up (`find`); an absent value gives the end
iterator and the call returns immediately; otherwise unlink selection
from value in `prerequisites_` and value from selection in
`dependants_`, unconditionally (each `DAG::unlink` itself decides
whether an edge was removed - and propagates its score delta either
way). -/
def Depends.removePrerequisite (st : TrackSt) (v : Int) : TrackSt :=
  match st.selected with
  | none => st
  | some s =>
    if v ∈ st.storage then
      match DAG.unlinkV st.pre s v with
      | none => st
      | some (pre1, _) =>
        match DAG.unlinkV st.dep v s with
        | none => { st with pre := pre1 }
        | some (dep1, _) => { st with pre := pre1, dep := dep1 }
    else st

/-- `Depends::removeDependant` (src/depends.hpp lines 372-387, by
value): the mirror image. -/
def Depends.removeDependant (st : TrackSt) (v : Int) : TrackSt :=
  match st.selected with
  | none => st
  | some s =>
    if v ∈ st.storage then
      match DAG.unlinkV st.dep s v with
      | none => st
      | some (dep1, _) =>
        match DAG.unlinkV st.pre v s with
        | none => { st with dep := dep1 }
        | some (pre1, _) => { st with dep := dep1, pre := pre1 }
    else st

/-- `Depends::getDependants` (src/depends.hpp lines 392-429): find the
selection's node in `dependants_`; with `all` false return the set of
values of its direct targets; with `all` true run `visit` from every
direct target, collecting every visited node's value into a set. -/
def Depends.getDependants (st : TrackSt) (all : Bool) : Finset Int :=
  match st.selected with
  | none => ∅
  | some s =>
    match findNid st.dep s with
    | none => ∅
    | some sid =>
      let tgts := targetsOfN st.dep.nodes sid
      if all then
        (tgts.foldr (fun c acc =>
            ((visitNodeF (fuelOf st.dep) st.dep.nodes [] c).toOption.getD []).toFinset ∪ acc)
          ∅).image (fun i => valueOfNid st.dep i)
      else (tgts.map (fun i => valueOfNid st.dep i)).toFinset

/-- `Depends::depends` (src/depends.hpp lines 433-463, by value):
false if either value is absent from the store, else whether a path
from the source to the target exists in `dependants_`
(`dependants_.linked(source, target)`). -/
def Depends.depends (st : TrackSt) (tgt src : Int) : Bool :=
  if tgt ∈ st.storage ∧ src ∈ st.storage then DAG.linkedV st.dep src tgt
  else false

/-- `Depends::erase` (src/depends.hpp lines 202-249, by value): the
while-find loop erases each stored occurrence of the value (at most one
- the store is a set).  The positional erase clears the selection if
the erased value is selected, then finds the value's node by POSITION
(`std::find`) in `dependants_` and runs the positional `DAG::erase`
there, does the same in `prerequisites_`, and finally erases the value
from the store.  Because `DAG::erase` is positional, it can delete a
different node than the one found when its unlink loop's address sorts
permute the vector (see `DAG.erasePos`). -/
def Depends.eraseV (st : TrackSt) (v : Int) : TrackSt :=
  if v ∈ st.storage then
    let st1 := if st.selected = some v then { st with selected := none } else st
    let dep1 :=
      match st1.dep.nodes.findIdx? (fun n => n.value == v) with
      | some p => DAG.erasePos st1.dep p
      | none => st1.dep
    let pre1 :=
      match st1.pre.nodes.findIdx? (fun n => n.value == v) with
      | some p => DAG.erasePos st1.pre p
      | none => st1.pre
    { storage := st1.storage.erase v, dep := dep1, pre := pre1, selected := st1.selected }
  else st

/-- `Depends::clear` (src/depends.hpp lines 257-263): clear the
selection, both DAGs and the store. -/
def Depends.clear (st : TrackSt) : TrackSt :=
  { storage := [], dep := ⟨[], st.dep.nextId⟩, pre := ⟨[], st.pre.nextId⟩, selected := none }

/-- Tracker states reachable from an empty tracker by the public
mutating operations (`erase` in its faithful positional form - which is
why no global consistency invariant holds over this relation: see the
C6 theorem).  The operations that dereference the current selection
(`addPrerequisite`, `addDependant`, `removePrerequisite`,
`removeDependant`) require one, as in the source, where calling them
without a selection fails `assert(selected_)` and dereferences a null
pointer. -/
inductive TReach : TrackSt → Prop
  | empty : TReach Depends.empty
  | insert {st : TrackSt} (v : Int) : TReach st → TReach (Depends.insert st v).1
  | selectV {st : TrackSt} (v : Int) : TReach st → TReach (Depends.selectV st v)
  | selectIter {st : TrackSt} (v : Int) : TReach st → v ∈ st.storage →
      TReach (Depends.selectIt st (some v)).1
  | selectEnd {st : TrackSt} : TReach st → TReach (Depends.selectIt st none).1
  | addPrerequisite {st : TrackSt} (v : Int) : TReach st → st.selected.isSome →
      TReach (Depends.addPrerequisite st v).1
  | addDependant {st : TrackSt} (v : Int) : TReach st → st.selected.isSome →
      TReach (Depends.addDependant st v).1
  | removePrerequisite {st : TrackSt} (v : Int) : TReach st → st.selected.isSome →
      TReach (Depends.removePrerequisite st v)
  | removeDependant {st : TrackSt} (v : Int) : TReach st → st.selected.isSome →
      TReach (Depends.removeDependant st v)
  | eraseV {st : TrackSt} (v : Int) : TReach st → TReach (Depends.eraseV st v)
  | clear {st : TrackSt} : TReach st → TReach (Depends.clear st)

/-- The node storing a given value, scanning `nodes_` in order
(`std::find` by value). -/
def vnodeOf? (nodes : List DNode) (v : Int) : Option DNode :=
  nodes.find? (fun n => n.value == v)

lemma findNid_eq (st : DAGSt) (v : Int) :
    findNid st v = (vnodeOf? st.nodes v).map DNode.nid := rfl

lemma vnodeOf?_eq_none {nodes : List DNode} {v : Int} :
    vnodeOf? nodes v = none ↔ v ∉ valuesOf nodes := by
  unfold vnodeOf? valuesOf
  rw [List.find?_eq_none]
  constructor
  · intro h hmem
    rcases List.mem_map.mp hmem with ⟨n, hn, hnv⟩
    exact h n hn (by simp [hnv])
  · intro h n hn hp
    exact h (List.mem_map.mpr ⟨n, hn, by simpa using hp⟩)

lemma vnodeOf?_spec {nodes : List DNode} {v : Int} {n : DNode}
    (h : vnodeOf? nodes v = some n) : n ∈ nodes ∧ n.value = v := by
  refine ⟨List.mem_of_find?_eq_some h, ?_⟩
  have := List.find?_some h
  simpa using this

lemma vnodeOf?_of_mem {nodes : List DNode} (hnd : (nodes.map DNode.value).Nodup)
    {n : DNode} (hn : n ∈ nodes) : vnodeOf? nodes n.value = some n := by
  have hsome : (nodes.find? (fun m => m.value == n.value)).isSome := by
    rw [List.find?_isSome]
    exact ⟨n, hn, by simp⟩
  rcases Option.isSome_iff_exists.mp hsome with ⟨m, hm⟩
  rcases vnodeOf?_spec hm with ⟨hmem, hv⟩
  have : m = n := List.inj_on_of_nodup_map hnd hmem hn hv
  rw [vnodeOf?, hm, this]

lemma findNid_isSome_iff {dag : DAGSt} {v : Int} :
    (findNid dag v).isSome ↔ v ∈ valuesOf dag.nodes := by
  rw [findNid_eq]
  cases h : vnodeOf? dag.nodes v with
  | none =>
    rw [vnodeOf?_eq_none] at h
    simp [h]
  | some n =>
    rcases vnodeOf?_spec h with ⟨hm, hv⟩
    simp only [Option.map_some', Option.isSome_some, true_iff]
    exact List.mem_map.mpr ⟨n, hm, hv⟩

lemma findNid_node {dag : DAGSt} (hwf : WF dag) {v : Int} {x : Nat}
    (h : findNid dag v = some x) :
    ∃ n, nodeOf? dag.nodes x = some n ∧ n ∈ dag.nodes ∧ n.value = v ∧ n.nid = x := by
  rw [findNid_eq] at h
  cases hv : vnodeOf? dag.nodes v with
  | none => rw [hv] at h; exact absurd h (by simp)
  | some n =>
    rw [hv] at h
    have hx : n.nid = x := by simpa using h
    rcases vnodeOf?_spec hv with ⟨hm, hval⟩
    exact ⟨n, hx ▸ nodeOf?_of_mem hwf.nidsNodup hm, hm, hval, hx⟩

lemma findNid_of_mem {dag : DAGSt} (hwf : WF dag) {n : DNode} (hn : n ∈ dag.nodes) :
    findNid dag n.value = some n.nid := by
  rw [findNid_eq, vnodeOf?_of_mem hwf.valsNodup hn]
  rfl

lemma valueOfNid_of_nodeOf? {dag : DAGSt} {x : Nat} {n : DNode}
    (h : nodeOf? dag.nodes x = some n) : valueOfNid dag x = n.value := by
  rw [valueOfNid, h]
  rfl

/-- Edge multiplicity between two values in a `DAG<pointer>`: the number
of occurrences of the target's node among the source's node's targets
(0 when either value is absent). -/
def edgeCountV (dag : DAGSt) (a b : Int) : Nat :=
  match findNid dag a, findNid dag b with
  | some x, some y => (targetsOfN dag.nodes x).count y
  | _, _ => 0

/-- Direct value-level edge relation. -/
def EstepV (dag : DAGSt) (a b : Int) : Prop := 0 < edgeCountV dag a b

instance (dag : DAGSt) (a b : Int) : Decidable (EstepV dag a b) := by
  unfold EstepV; infer_instance

lemma estepV_iff {dag : DAGSt} {a b : Int} {x y : Nat}
    (ha : findNid dag a = some x) (hb : findNid dag b = some y) :
    (EstepV dag a b ↔ Estep dag.nodes x y) := by
  unfold EstepV edgeCountV
  rw [ha, hb]
  rw [Estep]
  exact List.count_pos_iff

/-- Transport identifier-level reachability to value-level
reachability. -/
lemma reaches_to_v {dag : DAGSt} (hwf : WF dag) {x y : Nat} (h : Reaches dag.nodes x y) :
    Relation.ReflTransGen (EstepV dag) (valueOfNid dag x) (valueOfNid dag y) := by
  induction h with
  | refl => exact Relation.ReflTransGen.refl
  | tail hab hbc ih =>
    rename_i b c
    have hbid : b ∈ idsOf dag.nodes := estep_mem_ids hbc
    rcases List.mem_map.mp hbid with ⟨nb, hnb, hnbid⟩
    have hnb2 : nodeOf? dag.nodes b = some nb := hnbid ▸ nodeOf?_of_mem hwf.nidsNodup hnb
    have hcid : c ∈ idsOf dag.nodes := by
      rw [Estep, targetsOfN, hnb2] at hbc
      exact hwf.closed nb hnb c (by simpa using hbc)
    rcases List.mem_map.mp hcid with ⟨nc, hnc, hncid⟩
    have hnc2 : nodeOf? dag.nodes c = some nc := hncid ▸ nodeOf?_of_mem hwf.nidsNodup hnc
    refine ih.tail ?_
    rw [valueOfNid_of_nodeOf? hnb2, valueOfNid_of_nodeOf? hnc2]
    have hfb : findNid dag nb.value = some b := hnbid ▸ findNid_of_mem hwf hnb
    have hfc : findNid dag nc.value = some c := hncid ▸ findNid_of_mem hwf hnc
    exact (estepV_iff hfb hfc).mpr hbc

/-- Transport value-level reachability to identifier-level
reachability. -/
lemma reaches_of_v {dag : DAGSt} {a b : Int}
    (h : Relation.ReflTransGen (EstepV dag) a b) {x : Nat} (ha : findNid dag a = some x) :
    ∃ y, findNid dag b = some y ∧ Reaches dag.nodes x y := by
  induction h with
  | refl => exact ⟨x, ha, Relation.ReflTransGen.refl⟩
  | tail hab hbc ih =>
    rcases ih with ⟨y, hy, hr⟩
    rw [EstepV, edgeCountV, hy] at hbc
    cases hc : findNid dag _ with
    | none => rw [hc] at hbc; simp at hbc
    | some z =>
      rw [hc] at hbc
      exact ⟨z, rfl, hr.tail (List.count_pos_iff.mp hbc)⟩

lemma rtg_flip {r r2 : Int → Int → Prop} (h : ∀ a b, r a b ↔ r2 b a) {a b : Int}
    (hr : Relation.ReflTransGen r a b) : Relation.ReflTransGen r2 b a := by
  induction hr with
  | refl => exact Relation.ReflTransGen.refl
  | tail hab hbc ih => exact Relation.ReflTransGen.head ((h _ _).mp hbc) ih

lemma vnodeOf?_map (f : DNode → DNode) (hf : ∀ n, (f n).value = n.value)
    (nodes : List DNode) (v : Int) :
    vnodeOf? (nodes.map f) v = (vnodeOf? nodes v).map f := by
  induction nodes with
  | nil => rfl
  | cons a l ih =>
    by_cases h : a.value = v
    · rw [List.map_cons, vnodeOf?, List.find?_cons_of_pos _ (by simp [hf, h]),
        vnodeOf?, List.find?_cons_of_pos _ (by simp [h])]
      rfl
    · rw [List.map_cons, vnodeOf?, List.find?_cons_of_neg _ (by simp [hf, h]),
        vnodeOf?, List.find?_cons_of_neg _ (by simp [h])]
      exact ih

lemma vnodeOf?_eq_some_iff {nodes : List DNode} (hnd : (nodes.map DNode.value).Nodup)
    {v : Int} {n : DNode} :
    vnodeOf? nodes v = some n ↔ (n ∈ nodes ∧ n.value = v) := by
  constructor
  · exact vnodeOf?_spec
  · rintro ⟨hm, rfl⟩
    exact vnodeOf?_of_mem hnd hm

lemma vnodeOf?_perm {nodes nodes' : List DNode} (hperm : nodes.Perm nodes')
    (hnd : (nodes.map DNode.value).Nodup) (v : Int) :
    vnodeOf? nodes' v = vnodeOf? nodes v := by
  have hnd' : (nodes'.map DNode.value).Nodup := ((hperm.map DNode.value).nodup_iff).mp hnd
  cases h : vnodeOf? nodes v with
  | none =>
    rw [vnodeOf?_eq_none] at h ⊢
    intro hmem
    apply h
    rcases List.mem_map.mp hmem with ⟨m, hm, hmv⟩
    exact List.mem_map.mpr ⟨m, (hperm.mem_iff).mpr hm, hmv⟩
  | some n =>
    rcases vnodeOf?_spec h with ⟨hm, hv⟩
    exact (vnodeOf?_eq_some_iff hnd').mpr ⟨(hperm.mem_iff).mp hm, hv⟩

lemma vnodeOf?_cons (nn : DNode) (nodes : List DNode) (v : Int) :
    vnodeOf? (nn :: nodes) v = if nn.value = v then some nn else vnodeOf? nodes v := by
  by_cases h : nn.value = v
  · rw [vnodeOf?, List.find?_cons_of_pos _ (by simp [h]), if_pos h]
  · rw [vnodeOf?, List.find?_cons_of_neg _ (by simp [h]), if_neg h]
    rfl

lemma vnodeOf?_filter_stable {l : List DNode} (hnd : (l.map DNode.value).Nodup)
    {p : DNode → Bool} {v : Int} (hp : ∀ n ∈ l, n.value = v → p n = true) :
    vnodeOf? (l.filter p) v = vnodeOf? l v := by
  cases h : vnodeOf? l v with
  | none =>
    rw [vnodeOf?_eq_none] at h ⊢
    intro hmem
    apply h
    rcases List.mem_map.mp hmem with ⟨m, hm, hmv⟩
    exact List.mem_map.mpr ⟨m, List.mem_of_mem_filter hm, hmv⟩
  | some n =>
    rcases vnodeOf?_spec h with ⟨hm, hv⟩
    have hnf : n ∈ l.filter p := List.mem_filter.mpr ⟨hm, hp n hm hv⟩
    have hnd2 : ((l.filter p).map DNode.value).Nodup :=
      hnd.sublist ((List.filter_sublist l).map DNode.value)
    exact hv ▸ vnodeOf?_of_mem hnd2 hnf

lemma vnodeOf?_filter_out {l : List DNode} {p : DNode → Bool} {v : Int}
    (hp : ∀ n ∈ l, p n = true → n.value ≠ v) :
    vnodeOf? (l.filter p) v = none := by
  rw [vnodeOf?_eq_none]
  intro hmem
  rcases List.mem_map.mp hmem with ⟨m, hm, hmv⟩
  rcases List.mem_filter.mp hm with ⟨hml, hpm⟩
  exact hp m hml hpm hmv

/-- `findNid` (value to node identifier) is unchanged by a score-update
followed by any re-sort. -/
lemma findNid_post {base : DAGSt} (hnd : (base.nodes.map DNode.value).Nodup)
    {l : List Nat} {step : Nat → Nat} {st' : DAGSt}
    (hperm : st'.nodes.Perm (applyVisits base.nodes l step)) (v : Int) :
    findNid st' v = findNid base v := by
  have hvals : ((applyVisits base.nodes l step).map DNode.value) = base.nodes.map DNode.value := by
    unfold applyVisits
    rw [List.map_map]
    exact List.map_congr_left (fun n _ => rfl)
  have hnd2 : ((applyVisits base.nodes l step).map DNode.value).Nodup := by
    rw [hvals]
    exact hnd
  rw [findNid_eq, findNid_eq,
    vnodeOf?_perm hperm.symm hnd2 v]
  show ((vnodeOf? (applyVisits base.nodes l step) v).map DNode.nid) = _
  unfold applyVisits
  rw [vnodeOf?_map (fun n => { n with score := step^[l.count n.nid] n.score }) (fun _ => rfl)]
  cases h : vnodeOf? base.nodes v <;> simp [h]

lemma findNid_addEdge (st : DAGSt) (s t : Nat) (v : Int) :
    findNid (DAG.addEdge st s t) v = findNid st v := by
  rw [findNid_eq, findNid_eq]
  show (vnodeOf? ((DAG.addEdge st s t).nodes) v).map DNode.nid = _
  rw [show (DAG.addEdge st s t).nodes = st.nodes.map
    (fun n => if n.nid = s then { n with targets := n.targets ++ [t] } else n) from rfl]
  rw [vnodeOf?_map (fun n => if n.nid = s then { n with targets := n.targets ++ [t] } else n)
    (fun n => by by_cases h : n.nid = s <;> simp [h])]
  cases h : vnodeOf? st.nodes v with
  | none => rfl
  | some n => by_cases hns : n.nid = s <;> simp [hns]

lemma findNid_removeEdge (st : DAGSt) (s t : Nat) (v : Int) :
    findNid (DAG.removeEdge st s t) v = findNid st v := by
  rw [findNid_eq, findNid_eq]
  show (vnodeOf? ((DAG.removeEdge st s t).nodes) v).map DNode.nid = _
  rw [show (DAG.removeEdge st s t).nodes = st.nodes.map
    (fun n => if n.nid = s then { n with targets := n.targets.erase t } else n) from rfl]
  rw [vnodeOf?_map (fun n => if n.nid = s then { n with targets := n.targets.erase t } else n)
    (fun n => by by_cases h : n.nid = s <;> simp [h])]
  cases h : vnodeOf? st.nodes v with
  | none => rfl
  | some n => by_cases hns : n.nid = s <;> simp [hns]

lemma findNid_unlinkBase (st : DAGSt) (s t : Nat) (v : Int) :
    findNid (DAG.unlinkBase st s t) v = findNid st v := by
  unfold DAG.unlinkBase
  split
  · exact findNid_removeEdge st s t v
  · rfl

lemma valsNodup_unlinkBase {st : DAGSt} (hwf : WF st) (s t : Nat) :
    ((DAG.unlinkBase st s t).nodes.map DNode.value).Nodup := (wf_unlinkBase hwf s t).valsNodup

lemma findNid_unlink {st : DAGSt} (hwf : WF st) (s t : Nat) (v : Int) :
    findNid (DAG.unlink st s t).1 v = findNid st v := by
  obtain ⟨l, hmem, hcnt, heq⟩ := unlink_spec hwf s t
  rw [heq]
  have h1 : findNid (⟨sortByNid (applyVisits (DAG.unlinkBase st s t).nodes l
      (fun sc => wsub sc (scoreOfN (DAG.unlinkBase st s t).nodes s))), st.nextId⟩ : DAGSt) v
      = findNid (DAG.unlinkBase st s t) v :=
    findNid_post (valsNodup_unlinkBase hwf s t) (List.perm_insertionSort _ _) v
  rw [h1, findNid_unlinkBase]

lemma findNid_link {st st' : DAGSt} (hwf : WF st) {s t : Nat}
    (h : DAG.link st s t = some st') (v : Int) : findNid st' v = findNid st v := by
  obtain ⟨hnr, l, hmem, hcnt, hnodes, hnext⟩ := link_some_spec hwf.acyclic h
  have hnd : ((DAG.addEdge st s t).nodes.map DNode.value).Nodup := by
    have hh := valuesOf_addEdge st s t
    unfold valuesOf at hh
    rw [hh]
    exact hwf.valsNodup
  have h1 : findNid st' v = findNid (DAG.addEdge st s t) v :=
    findNid_post hnd (by rw [hnodes]; exact List.perm_insertionSort _ _) v
  rw [h1, findNid_addEdge]

lemma findNid_eraseOutLoop {st : DAGSt} (hwf : WF st) :
    ∀ (fuel : Nat) (x : Nat) (v : Int),
      findNid (eraseOutLoop fuel st x) v = findNid st v := by
  intro fuel
  induction fuel generalizing st hwf with
  | zero => intro x v; rfl
  | succ fuel ih =>
    intro x v
    show findNid (eraseOutLoop (fuel + 1) st x) v = _
    unfold eraseOutLoop
    cases htg : targetsOfN st.nodes x with
    | nil => rfl
    | cons t ts =>
      rw [ih (unlink_wf hwf x t) x v, findNid_unlink hwf x t v]

lemma findNid_inj {dag : DAGSt} (hwf : WF dag) {a b : Int} {x : Nat}
    (ha : findNid dag a = some x) (hb : findNid dag b = some x) : a = b := by
  rcases findNid_node hwf ha with ⟨n, hn2, _, hnval, _⟩
  rcases findNid_node hwf hb with ⟨m, hm2, _, hmval, _⟩
  rw [hn2] at hm2
  cases hm2
  rw [← hnval, ← hmval]

lemma count_filter_of_pos {p : Nat → Bool} {a : Nat} (ha : p a = true) :
    ∀ l : List Nat, (l.filter p).count a = l.count a := by
  intro l
  induction l with
  | nil => rfl
  | cons c cs ih =>
    by_cases hc : p c = true
    · rw [List.filter_cons_of_pos hc, List.count_cons, List.count_cons, ih]
    · rw [List.filter_cons_of_neg (by simpa using hc), ih, List.count_cons]
      have : ¬ c = a := fun he => hc (he ▸ ha)
      simp [this]

lemma findNid_insert_other {st : DAGSt} {w a : Int} (ha : a ≠ w) :
    findNid (DAG.insert st w).1 a = findNid st a := by
  by_cases h : ∃ n ∈ st.nodes, n.value = w
  · rw [insert_already h]
  · push_neg at h
    rw [insert_new h]
    show findNid ⟨⟨st.nextId, w, 1, []⟩ :: st.nodes, st.nextId + 1⟩ a = _
    rw [findNid_eq, findNid_eq]
    show ((vnodeOf? (⟨st.nextId, w, 1, []⟩ :: st.nodes) a).map DNode.nid) = _
    rw [vnodeOf?_cons]
    rw [if_neg (by simpa using ha.symm)]

lemma findNid_insert_fresh {st : DAGSt} {w : Int} (h : ∀ n ∈ st.nodes, n.value ≠ w) :
    findNid (DAG.insert st w).1 w = some st.nextId := by
  rw [insert_new h]
  show findNid ⟨⟨st.nextId, w, 1, []⟩ :: st.nodes, st.nextId + 1⟩ w = _
  rw [findNid_eq]
  show ((vnodeOf? (⟨st.nextId, w, 1, []⟩ :: st.nodes) w).map DNode.nid) = _
  rw [vnodeOf?_cons, if_pos rfl]
  rfl

lemma targetsOfN_insert_old {st : DAGSt} {w : Int} {x : Nat} (hx : x ≠ st.nextId) :
    targetsOfN (DAG.insert st w).1.nodes x = targetsOfN st.nodes x := by
  by_cases h : ∃ n ∈ st.nodes, n.value = w
  · rw [insert_already h]
  · push_neg at h
    rw [insert_new h]
    show targetsOfN (⟨st.nextId, w, 1, []⟩ :: st.nodes) x = _
    rw [targetsOfN, nodeOf?_cons, if_neg (by simpa using hx.symm)]
    rfl

/-- A fresh insertion creates an isolated node: every edge multiplicity
between values is unchanged. -/
lemma edgeCountV_insert {st : DAGSt} (hwf : WF st) {w : Int}
    (hfresh : w ∉ valuesOf st.nodes) (a b : Int) :
    edgeCountV (DAG.insert st w).1 a b = edgeCountV st a b := by
  have hfr : ∀ n ∈ st.nodes, n.value ≠ w := by
    intro n hn he
    exact hfresh (List.mem_map.mpr ⟨n, hn, he⟩)
  have hwnone : findNid st w = none := by
    rw [findNid_eq, vnodeOf?_eq_none.mpr hfresh]
    rfl
  by_cases ha : a = w
  · subst ha
    rw [edgeCountV, edgeCountV, hwnone, findNid_insert_fresh hfr]
    have htg : targetsOfN (DAG.insert st a).1.nodes st.nextId = [] := by
      rw [insert_new hfr]
      show targetsOfN (⟨st.nextId, a, 1, []⟩ :: st.nodes) st.nextId = []
      rw [targetsOfN, nodeOf?_cons, if_pos rfl]
      rfl
    cases findNid (DAG.insert st a).1 b <;> simp [htg]
  · rw [edgeCountV, edgeCountV, findNid_insert_other ha]
    cases hfa : findNid st a with
    | none => rfl
    | some x =>
      rcases findNid_node hwf hfa with ⟨n, hn2, hnmem, hnval, hnnid⟩
      have hxlt : x < st.nextId := hnnid ▸ hwf.bounded n hnmem
      have htg : targetsOfN (DAG.insert st w).1.nodes x = targetsOfN st.nodes x :=
        targetsOfN_insert_old (by omega)
      by_cases hb : b = w
      · subst hb
        rw [hwnone, findNid_insert_fresh hfr]
        have hni : st.nextId ∉ targetsOfN st.nodes x := by
          intro hmem
          have h2 : st.nextId ∈ idsOf st.nodes := by
            rw [targetsOfN, hn2] at hmem
            exact hwf.closed n hnmem st.nextId (by simpa using hmem)
          exact nextId_not_mem hwf h2
        simp [htg, List.count_eq_zero.mpr hni]
      · rw [findNid_insert_other hb]
        cases hfb : findNid st b with
        | none => rfl
        | some y => simp [htg]

/-- Values present after a fresh insertion. -/
lemma valuesOf_insert {st : DAGSt} {w : Int} (u : Int) :
    u ∈ valuesOf (DAG.insert st w).1.nodes ↔ (u = w ∨ u ∈ valuesOf st.nodes) := by
  by_cases h : ∃ n ∈ st.nodes, n.value = w
  · rw [insert_already h]
    rcases h with ⟨n, hn, hv⟩
    constructor
    · exact Or.inr
    · rintro (rfl | hu)
      · exact List.mem_map.mpr ⟨n, hn, hv⟩
      · exact hu
  · push_neg at h
    rw [insert_new h]
    show u ∈ valuesOf (⟨st.nextId, w, 1, []⟩ :: st.nodes) ↔ _
    unfold valuesOf
    rw [List.map_cons]
    simp [eq_comm]

/-- A successful by-value `link` adds exactly one occurrence of the
requested edge and changes nothing else. -/
lemma linkV_ok_inv {dag dag' : DAGSt} (hwf : WF dag) {aS aT : Int}
    (h : DAG.linkV dag aS aT = .ok dag') :
    WF dag' ∧ (∀ v, findNid dag' v = findNid dag v) ∧
      (∀ a b, edgeCountV dag' a b
        = edgeCountV dag a b + (if a = aS ∧ b = aT then 1 else 0)) ∧
      (∀ v, v ∈ valuesOf dag'.nodes ↔ v ∈ valuesOf dag.nodes) := by
  unfold DAG.linkV at h
  cases hfs : findNid dag aS with
  | none => simp [hfs] at h
  | some s =>
    cases hft : findNid dag aT with
    | none => simp [hfs, hft] at h
    | some tn =>
      simp only [hfs, hft] at h
      cases hlink : DAG.link dag s tn with
      | none => simp [hlink] at h
      | some d2 =>
        simp only [hlink] at h
        have hd2 : d2 = dag' := Except.ok.inj h
        rw [← hd2]
        rcases findNid_node hwf hft with ⟨nt, hnt2, hntmem, hntval, hntnid⟩
        have htids : tn ∈ idsOf dag.nodes := by
          rw [← hntnid]
          exact List.mem_map.mpr ⟨nt, hntmem, rfl⟩
        have hwf' : WF d2 := link_wf hwf htids hlink
        have hfind : ∀ v, findNid d2 v = findNid dag v := findNid_link hwf hlink
        refine ⟨hwf', hfind, ?_, ?_⟩
        · intro a b
          rw [edgeCountV, edgeCountV, hfind a, hfind b]
          cases hfa : findNid dag a with
          | none =>
            have hna : ¬ (a = aS ∧ b = aT) := by
              rintro ⟨rfl, rfl⟩
              rw [hfa] at hfs
              exact absurd hfs (by simp)
            cases findNid dag b <;> simp [hna]
          | some x =>
            cases hfb : findNid dag b with
            | none =>
              have hnb : ¬ (a = aS ∧ b = aT) := by
                rintro ⟨rfl, rfl⟩
                rw [hfb] at hft
                exact absurd hft (by simp)
              simp [hnb]
            | some y =>
              show (targetsOfN d2.nodes x).count y
                  = (targetsOfN dag.nodes x).count y + (if a = aS ∧ b = aT then 1 else 0)
              have htgs := link_targets hwf hlink x
              by_cases hxs : x = s
              · subst hxs
                have haS : a = aS := findNid_inj hwf hfa hfs
                rcases findNid_node hwf hfs with ⟨ns, hns2, hnsmem, hnsval, hnsnid⟩
                rw [htgs, targetsOfN_addEdge_self hns2 tn]
                rw [List.count_append]
                have hbt : (b = aT) ↔ (y = tn) := by
                  constructor
                  · rintro rfl
                    rw [hfb] at hft
                    simpa using hft
                  · rintro rfl
                    exact findNid_inj hwf hfb hft
                by_cases hyt : y = tn
                · simp [haS, hbt.mpr hyt, hyt]
                · have : ¬ b = aT := fun hb => hyt (hbt.mp hb)
                  simp [this, hyt]
              · have haa : ¬ (a = aS ∧ b = aT) := by
                  rintro ⟨rfl, rfl⟩
                  rw [hfa] at hfs
                  exact hxs (by simpa using hfs)
                rw [htgs, targetsOfN_addEdge_ne hxs]
                simp [haa]
        · intro v
          obtain ⟨hnr, l, hmem2, hcnt, hnodes, hnext⟩ := link_some_spec hwf.acyclic hlink
          have hperm : (valuesOf d2.nodes).Perm (valuesOf (DAG.addEdge dag s tn).nodes) := by
            have h1 : (valuesOf d2.nodes).Perm
                (valuesOf (applyVisits (DAG.addEdge dag s tn).nodes l
                  (fun sc => wadd sc (scoreOfN (DAG.addEdge dag s tn).nodes s)))) := by
              rw [hnodes]
              exact (List.perm_insertionSort _ _).map DNode.value
            have h2 : valuesOf (applyVisits (DAG.addEdge dag s tn).nodes l
                (fun sc => wadd sc (scoreOfN (DAG.addEdge dag s tn).nodes s)))
                = valuesOf (DAG.addEdge dag s tn).nodes := by
              unfold applyVisits
              exact valuesOf_map_pres
                (fun n => { n with score := (fun sc => wadd sc
                  (scoreOfN (DAG.addEdge dag s tn).nodes s))^[l.count n.nid] n.score })
                (fun _ => rfl) _
            rw [h2] at h1
            exact h1
          rw [hperm.mem_iff, valuesOf_addEdge]

/-- A by-value `unlink` on two present values removes at most one
occurrence of the requested edge and changes no other edge. -/
lemma unlinkV_inv {dag : DAGSt} (hwf : WF dag) {aS aT : Int} {dag' : DAGSt} {w : Bool}
    (h : DAG.unlinkV dag aS aT = some (dag', w)) :
    WF dag' ∧ (∀ v, findNid dag' v = findNid dag v) ∧
      (∀ a b, edgeCountV dag' a b
        = edgeCountV dag a b - (if a = aS ∧ b = aT then 1 else 0)) ∧
      (∀ v, v ∈ valuesOf dag'.nodes ↔ v ∈ valuesOf dag.nodes) := by
  unfold DAG.unlinkV at h
  cases hfs : findNid dag aS with
  | none => simp [hfs] at h
  | some s =>
    cases hft : findNid dag aT with
    | none => simp [hfs, hft] at h
    | some tn =>
      simp only [hfs, hft] at h
      have hp := Option.some.inj h
      have hd : (DAG.unlink dag s tn).1 = dag' := by rw [hp]
      rw [← hd]
      refine ⟨unlink_wf hwf s tn, findNid_unlink hwf s tn, ?_, ?_⟩
      · intro a b
        rw [edgeCountV, edgeCountV, findNid_unlink hwf s tn a, findNid_unlink hwf s tn b]
        cases hfa : findNid dag a with
        | none =>
          have hna : ¬ (a = aS ∧ b = aT) := by
            rintro ⟨rfl, rfl⟩
            rw [hfa] at hfs
            exact absurd hfs (by simp)
          cases findNid dag b <;> simp [hna]
        | some x =>
          cases hfb : findNid dag b with
          | none =>
            have hnb : ¬ (a = aS ∧ b = aT) := by
              rintro ⟨rfl, rfl⟩
              rw [hfb] at hft
              exact absurd hft (by simp)
            simp [hnb]
          | some y =>
            show (targetsOfN (DAG.unlink dag s tn).1.nodes x).count y
                = (targetsOfN dag.nodes x).count y - (if a = aS ∧ b = aT then 1 else 0)
            have htgs := unlink_targets hwf s tn x
            have hbase : targetsOfN (DAG.unlinkBase dag s tn).nodes s
                = (targetsOfN dag.nodes s).erase tn := by
              unfold DAG.unlinkBase
              split
              · exact targetsOfN_removeEdge_self dag s tn
              · rename_i hnm
                rw [List.erase_of_not_mem hnm]
            by_cases hxs : x = s
            · subst hxs
              have haS : a = aS := findNid_inj hwf hfa hfs
              rw [htgs, hbase]
              have hbt : (b = aT) ↔ (y = tn) := by
                constructor
                · rintro rfl
                  rw [hfb] at hft
                  simpa using hft
                · rintro rfl
                  exact findNid_inj hwf hfb hft
              by_cases hyt : y = tn
              · subst hyt
                rw [List.count_erase_self]
                simp [haS, hbt.mpr rfl]
              · rw [List.count_erase_of_ne hyt]
                have : ¬ b = aT := fun hb => hyt (hbt.mp hb)
                simp [this]
            · have haa : ¬ (a = aS ∧ b = aT) := by
                rintro ⟨rfl, rfl⟩
                rw [hfa] at hfs
                exact hxs (by simpa using hfs)
              have hbase2 : targetsOfN (DAG.unlinkBase dag s tn).nodes x
                  = targetsOfN dag.nodes x := by
                unfold DAG.unlinkBase
                split
                · exact targetsOfN_removeEdge_ne hxs
                · rfl
              rw [htgs, hbase2]
              simp [haa]
      · intro v
        obtain ⟨_, _, _, hvals⟩ := unlink_facts hwf s tn
        unfold valuesOf at hvals
        rw [valuesOf, valuesOf, hvals.mem_iff]

lemma targetsOfN_unlinkBase_ne {st : DAGSt} {s t y : Nat} (hy : y ≠ s) :
    targetsOfN (DAG.unlinkBase st s t).nodes y = targetsOfN st.nodes y := by
  unfold DAG.unlinkBase
  split
  · exact targetsOfN_removeEdge_ne hy
  · rfl

lemma targetsOfN_eraseOutLoop_ne :
    ∀ (fuel : Nat) {st : DAGSt}, WF st → ∀ (x y : Nat), y ≠ x →
      targetsOfN (eraseOutLoop fuel st x).nodes y = targetsOfN st.nodes y := by
  intro fuel
  induction fuel with
  | zero => intro st _ x y _; rfl
  | succ fuel ih =>
    intro st hwf x y hyx
    show targetsOfN (eraseOutLoop (fuel + 1) st x).nodes y = _
    unfold eraseOutLoop
    cases htg : targetsOfN st.nodes x with
    | nil => rfl
    | cons t ts =>
      rw [ih (unlink_wf hwf x t) x y hyx, unlink_targets hwf x t y,
        targetsOfN_unlinkBase_ne hyx]

/-- Characterisation of `DAG::erase` on the node storing value `v`: the
value disappears, all edge multiplicities touching it drop to zero, and
everything else is untouched. -/
lemma eraseN_inv {dag : DAGSt} (hwf : WF dag) {v : Int} {x : Nat}
    (h : findNid dag v = some x) :
    WF (DAG.eraseN dag x) ∧
      (∀ a, a ≠ v → findNid (DAG.eraseN dag x) a = findNid dag a) ∧
      findNid (DAG.eraseN dag x) v = none ∧
      (∀ a b, edgeCountV (DAG.eraseN dag x) a b
        = if a = v ∨ b = v then 0 else edgeCountV dag a b) ∧
      (∀ u, u ∈ valuesOf (DAG.eraseN dag x).nodes ↔ (u ∈ valuesOf dag.nodes ∧ u ≠ v)) := by
  obtain ⟨hwf1, hnext1, hids1, hvals1, hest1⟩ :=
    eraseOutLoop_facts (targetsOfN dag.nodes x).length dag x hwf
  have hfind1 : ∀ c, findNid (eraseOutLoop (targetsOfN dag.nodes x).length dag x) c
      = findNid dag c := findNid_eraseOutLoop hwf _ x
  have hnidx : ∀ n ∈ (eraseOutLoop (targetsOfN dag.nodes x).length dag x).nodes,
      (n.nid = x ↔ n.value = v) := by
    intro n hn
    constructor
    · intro hnx
      have := findNid_of_mem hwf1 hn
      rw [hfind1, hnx] at this
      exact findNid_inj hwf this h
    · intro hnv
      have := findNid_of_mem hwf1 hn
      rw [hfind1, hnv, h] at this
      exact (Option.some.inj this).symm
  have hfo : ∀ a, a ≠ v → findNid (DAG.eraseN dag x) a = findNid dag a := by
    intro a hav
    rw [findNid_eq, eraseN_nodes,
      vnodeOf?_map (fun n => { n with targets := n.targets.filter fun t => t ≠ x })
        (fun _ => rfl),
      vnodeOf?_filter_stable hwf1.valsNodup (fun n hn hnv => by
        have : ¬ n.nid = x := fun hx => hav (hnv ▸ ((hnidx n hn).mp hx).symm ▸ rfl)
        simpa using this)]
    rw [← hfind1 a, findNid_eq]
    cases hvv : vnodeOf? (eraseOutLoop (targetsOfN dag.nodes x).length dag x).nodes a <;>
      simp [hvv]
  have hfv : findNid (DAG.eraseN dag x) v = none := by
    rw [findNid_eq, eraseN_nodes,
      vnodeOf?_map (fun n => { n with targets := n.targets.filter fun t => t ≠ x })
        (fun _ => rfl),
      vnodeOf?_filter_out (fun n hn hp hnv => by
        have hx : n.nid = x := (hnidx n hn).mpr hnv
        simp [hx] at hp)]
    rfl
  refine ⟨wf_eraseN hwf x, hfo, hfv, ?_, ?_⟩
  · intro a b
    by_cases hab : a = v ∨ b = v
    · rw [if_pos hab]
      rcases hab with rfl | rfl
      · rw [edgeCountV, hfv]
      · rw [edgeCountV, hfv]
        cases findNid (DAG.eraseN dag x) a <;> rfl
    · push_neg at hab
      rw [if_neg (by tauto)]
      rw [edgeCountV, edgeCountV, hfo a hab.1, hfo b hab.2]
      cases hfa : findNid dag a with
      | none => rfl
      | some xa =>
        cases hfb : findNid dag b with
        | none => rfl
        | some yb =>
          show (targetsOfN (DAG.eraseN dag x).nodes xa).count yb
              = (targetsOfN dag.nodes xa).count yb
          have hxa : xa ≠ x := by
            intro hxx
            exact hab.1 (findNid_inj hwf (hxx ▸ hfa) h)
          have hyb : yb ≠ x := by
            intro hyy
            exact hab.2 (findNid_inj hwf (hyy ▸ hfb) h)
          rw [targetsOfN, nodeOf?_eraseN_ne hwf hxa]
          cases hma : nodeOf? (eraseOutLoop (targetsOfN dag.nodes x).length dag x).nodes xa with
          | none =>
            have hma2 : targetsOfN (eraseOutLoop (targetsOfN dag.nodes x).length dag x).nodes xa
                = [] := by rw [targetsOfN, hma]; rfl
            rw [targetsOfN_eraseOutLoop_ne _ hwf x xa hxa] at hma2
            simp [hma2]
          | some m =>
            simp only [Option.map_some', Option.getD_some]
            have hcnt : (m.targets.filter fun t => t ≠ x).count yb = m.targets.count yb :=
              count_filter_of_pos (by simpa using hyb) m.targets
            rw [hcnt]
            have hmt : targetsOfN (eraseOutLoop (targetsOfN dag.nodes x).length dag x).nodes xa
                = m.targets := by rw [targetsOfN, hma]; rfl
            rw [targetsOfN_eraseOutLoop_ne _ hwf x xa hxa] at hmt
            rw [hmt]
  · intro u
    constructor
    · intro hu
      rw [eraseN_nodes] at hu
      rcases List.mem_map.mp hu with ⟨n2, hn2, hval⟩
      rcases List.mem_map.mp hn2 with ⟨m, hm, rfl⟩
      rcases List.mem_filter.mp hm with ⟨hml, hmx⟩
      have hmnx : m.nid ≠ x := by simpa using hmx
      have hmv : m.value ≠ v := fun hv => hmnx ((hnidx m hml).mpr hv)
      have hval2 : m.value = u := hval
      constructor
      · rw [← hval2]
        have : m.value ∈ valuesOf (eraseOutLoop (targetsOfN dag.nodes x).length dag x).nodes :=
          List.mem_map.mpr ⟨m, hml, rfl⟩
        exact (hvals1.mem_iff).mp this
      · rw [← hval2]
        exact hmv
    · rintro ⟨hu, huv⟩
      have hu1 : u ∈ valuesOf (eraseOutLoop (targetsOfN dag.nodes x).length dag x).nodes :=
        (hvals1.mem_iff).mpr hu
      rcases List.mem_map.mp hu1 with ⟨m, hm, hmv⟩
      have hmnx : m.nid ≠ x := fun hx => huv (hmv ▸ ((hnidx m hm).mp hx))
      rw [eraseN_nodes]
      refine List.mem_map.mpr ⟨{ m with targets := m.targets.filter fun t => t ≠ x }, ?_, hmv⟩
      exact List.mem_map.mpr ⟨m, List.mem_filter.mpr ⟨hm, by simpa using hmnx⟩, rfl⟩

/-- The internal consistency invariant of a tracker: both DAGs are
well-formed, store exactly the stored values (one aliasing node each),
and are exact mirror images edge-for-edge (with multiplicity); the
selection, when set, refers to a stored value. -/
structure TInv (st : TrackSt) : Prop where
  wfDep : WF st.dep
  wfPre : WF st.pre
  depVals : ∀ v : Int, v ∈ valuesOf st.dep.nodes ↔ v ∈ st.storage
  preVals : ∀ v : Int, v ∈ valuesOf st.pre.nodes ↔ v ∈ st.storage
  mirror : ∀ a b : Int, edgeCountV st.dep a b = edgeCountV st.pre b a
  selMem : ∀ v, st.selected = some v → v ∈ st.storage
  storNodup : st.storage.Nodup

lemma tinv_empty : TInv Depends.empty := by
  refine ⟨wf_empty, wf_empty, ?_, ?_, ?_, ?_, List.nodup_nil⟩
  · intro v
    exact iff_of_false (by simp [Depends.empty, DAG.empty, valuesOf]) (by simp [Depends.empty])
  · intro v
    exact iff_of_false (by simp [Depends.empty, DAG.empty, valuesOf]) (by simp [Depends.empty])
  · intro a b
    rfl
  · intro v h
    simp [Depends.empty] at h

lemma reaches_v_iff {dag : DAGSt} (hwf : WF dag) {a b : Int} {x y : Nat}
    (ha : findNid dag a = some x) (hb : findNid dag b = some y) :
    (Reaches dag.nodes x y ↔ Relation.ReflTransGen (EstepV dag) a b) := by
  constructor
  · intro h
    have h2 := reaches_to_v hwf h
    rcases findNid_node hwf ha with ⟨n, hn2, _, hnval, _⟩
    rcases findNid_node hwf hb with ⟨m, hm2, _, hmval, _⟩
    rwa [valueOfNid_of_nodeOf? hn2, valueOfNid_of_nodeOf? hm2, hnval, hmval] at h2
  · intro h
    rcases reaches_of_v h ha with ⟨y2, hy2, hr⟩
    rw [hb] at hy2
    cases Option.some.inj hy2
    exact hr

lemma linkV_isOk_iff {dag : DAGSt} (hwf : WF dag) {aS aT : Int} {ps pt : Nat}
    (hfs : findNid dag aS = some ps) (hft : findNid dag aT = some pt) :
    ((∃ d, DAG.linkV dag aS aT = .ok d) ↔ ¬ Reaches dag.nodes pt ps) := by
  unfold DAG.linkV
  rw [hfs, hft]
  cases hlink : DAG.link dag ps pt with
  | none =>
    refine iff_of_false (by simp [hlink]) ?_
    intro hnr
    exact hnr ((link_none_iff hwf.acyclic ps pt).mp hlink)
  | some d2 =>
    refine iff_of_true ⟨d2, by simp [hlink]⟩ ?_
    intro hr
    rw [(link_none_iff hwf.acyclic ps pt).mpr hr] at hlink
    exact absurd hlink (by simp)

/-- Under the mirror invariant the cycle check of
`prerequisites_.link(S, v)` succeeds exactly when the cycle check of the
mirrored `dependants_.link(v, S)` succeeds: the two DAGs are exact
mirror images, so reachability is exactly reversed. -/
lemma linkV_mirror_iff {st : TrackSt} (hinv : TInv st) {s v : Int}
    (hs : s ∈ st.storage) (hv : v ∈ st.storage) :
    ((∃ d, DAG.linkV st.pre s v = .ok d) ↔ (∃ d, DAG.linkV st.dep v s = .ok d)) := by
  have hps : (findNid st.pre s).isSome := findNid_isSome_iff.mpr ((hinv.preVals s).mpr hs)
  have hpv : (findNid st.pre v).isSome := findNid_isSome_iff.mpr ((hinv.preVals v).mpr hv)
  have hds : (findNid st.dep s).isSome := findNid_isSome_iff.mpr ((hinv.depVals s).mpr hs)
  have hdv : (findNid st.dep v).isSome := findNid_isSome_iff.mpr ((hinv.depVals v).mpr hv)
  rcases Option.isSome_iff_exists.mp hps with ⟨ps, hps⟩
  rcases Option.isSome_iff_exists.mp hpv with ⟨pv, hpv⟩
  rcases Option.isSome_iff_exists.mp hds with ⟨ds, hds⟩
  rcases Option.isSome_iff_exists.mp hdv with ⟨dv, hdv⟩
  rw [linkV_isOk_iff hinv.wfPre hps hpv, linkV_isOk_iff hinv.wfDep hdv hds]
  apply not_congr
  rw [reaches_v_iff hinv.wfPre hpv hps, reaches_v_iff hinv.wfDep hds hdv]
  have hmir : ∀ a b : Int, EstepV st.pre a b ↔ EstepV st.dep b a := by
    intro a b
    unfold EstepV
    rw [hinv.mirror b a]
  exact ⟨rtg_flip hmir, rtg_flip (fun a b => (hmir b a).symm)⟩

/-- `Depends::insert` preserves the invariant and changes no edges. -/
lemma tinsert_inv {st : TrackSt} (hinv : TInv st) (v : Int) :
    TInv (Depends.insert st v).1 ∧
      (∀ a b, edgeCountV (Depends.insert st v).1.dep a b = edgeCountV st.dep a b) ∧
      (∀ a b, edgeCountV (Depends.insert st v).1.pre a b = edgeCountV st.pre a b) ∧
      (Depends.insert st v).1.selected = st.selected ∧
      v ∈ (Depends.insert st v).1.storage ∧
      (∀ u, u ∈ (Depends.insert st v).1.storage ↔ (u = v ∨ u ∈ st.storage)) := by
  by_cases hmem : v ∈ st.storage
  · rw [show (Depends.insert st v) = (st, false) from by simp [Depends.insert, hmem]]
    exact ⟨hinv, fun a b => rfl, fun a b => rfl, rfl, hmem,
      fun u => ⟨Or.inr, fun h => h.elim (fun he => he ▸ hmem) id⟩⟩
  · have hrw : (Depends.insert st v).1 =
        { storage := List.orderedInsert (· ≤ ·) v st.storage,
          dep := (DAG.insert st.dep v).1,
          pre := (DAG.insert st.pre v).1,
          selected := st.selected } := by
      simp [Depends.insert, hmem]
    have hfreshd : v ∉ valuesOf st.dep.nodes := fun h => hmem ((hinv.depVals v).mp h)
    have hfreshp : v ∉ valuesOf st.pre.nodes := fun h => hmem ((hinv.preVals v).mp h)
    have hsmem : ∀ u, u ∈ List.orderedInsert (· ≤ ·) v st.storage ↔ (u = v ∨ u ∈ st.storage) := by
      intro u
      rw [(List.perm_orderedInsert (· ≤ ·) v st.storage).mem_iff]
      simp
    rw [hrw]
    refine ⟨⟨wf_insert hinv.wfDep v, wf_insert hinv.wfPre v, ?_, ?_, ?_, ?_, ?_⟩,
      fun a b => edgeCountV_insert hinv.wfDep hfreshd a b,
      fun a b => edgeCountV_insert hinv.wfPre hfreshp a b, rfl, ?_, ?_⟩
    · intro u
      show u ∈ valuesOf (DAG.insert st.dep v).1.nodes ↔
        u ∈ List.orderedInsert (· ≤ ·) v st.storage
      rw [valuesOf_insert u, hsmem u, hinv.depVals u]
    · intro u
      show u ∈ valuesOf (DAG.insert st.pre v).1.nodes ↔
        u ∈ List.orderedInsert (· ≤ ·) v st.storage
      rw [valuesOf_insert u, hsmem u, hinv.preVals u]
    · intro a b
      show edgeCountV (DAG.insert st.dep v).1 a b = edgeCountV (DAG.insert st.pre v).1 b a
      rw [edgeCountV_insert hinv.wfDep hfreshd a b, edgeCountV_insert hinv.wfPre hfreshp b a]
      exact hinv.mirror a b
    · intro u hu
      exact (hsmem u).mpr (Or.inr (hinv.selMem u hu))
    · show (List.orderedInsert (· ≤ ·) v st.storage).Nodup
      have hper : (List.orderedInsert (· ≤ ·) v st.storage).Perm (v :: st.storage) :=
        List.perm_orderedInsert (· ≤ ·) v st.storage
      rw [hper.nodup_iff, List.nodup_cons]
      exact ⟨hmem, hinv.storNodup⟩
    · exact (hsmem v).mpr (Or.inl rfl)
    · exact hsmem

/-- `Depends::addPrerequisite` with a selection either links in both
DAGs (one mirrored edge each) or throws before touching any edge. -/
lemma addPrerequisite_effect {st : TrackSt} (hinv : TInv st) {s : Int}
    (hsel : st.selected = some s) (v : Int) :
    TInv (Depends.addPrerequisite st v).1 ∧
      (((Depends.addPrerequisite st v).2 = true ∧
        (∀ a b, edgeCountV (Depends.addPrerequisite st v).1.pre a b
          = edgeCountV st.pre a b + (if a = s ∧ b = v then 1 else 0)) ∧
        (∀ a b, edgeCountV (Depends.addPrerequisite st v).1.dep a b
          = edgeCountV st.dep a b + (if a = v ∧ b = s then 1 else 0)))
      ∨ ((Depends.addPrerequisite st v).2 = false ∧
        (∀ a b, edgeCountV (Depends.addPrerequisite st v).1.pre a b = edgeCountV st.pre a b) ∧
        (∀ a b, edgeCountV (Depends.addPrerequisite st v).1.dep a b = edgeCountV st.dep a b))) := by
  obtain ⟨hinv1, hdc, hpc, hseleq, hvmem, hsmem⟩ := tinsert_inv hinv v
  set st1 := (Depends.insert st v).1 with hst1
  have hsel1 : st1.selected = some s := by rw [hseleq, hsel]
  have hs1 : s ∈ st1.storage := (hsmem s).mpr (Or.inr (hinv.selMem s hsel))
  cases hlp : DAG.linkV st1.pre s v with
  | error e =>
    have happ : Depends.addPrerequisite st v = (st1, false) := by
      simp only [Depends.addPrerequisite, ← hst1, hsel1, hlp]
    rw [happ]
    exact ⟨hinv1, Or.inr ⟨rfl, fun a b => hpc a b, fun a b => hdc a b⟩⟩
  | ok pre1 =>
    obtain ⟨dep1, hld⟩ : ∃ d, DAG.linkV st1.dep v s = .ok d :=
      (linkV_mirror_iff hinv1 hs1 hvmem).mp ⟨pre1, hlp⟩
    have happ : Depends.addPrerequisite st v = ({ st1 with pre := pre1, dep := dep1 }, true) := by
      simp only [Depends.addPrerequisite, ← hst1, hsel1, hlp, hld]
    rw [happ]
    obtain ⟨hwfp, hfp, hcp, hvp⟩ := linkV_ok_inv hinv1.wfPre hlp
    obtain ⟨hwfd, hfd, hcd, hvd⟩ := linkV_ok_inv hinv1.wfDep hld
    refine ⟨⟨hwfd, hwfp, ?_, ?_, ?_, ?_, ?_⟩,
      Or.inl ⟨rfl, ?_, ?_⟩⟩
    · intro u
      show u ∈ valuesOf dep1.nodes ↔ u ∈ st1.storage
      rw [hvd u, hinv1.depVals u]
    · intro u
      show u ∈ valuesOf pre1.nodes ↔ u ∈ st1.storage
      rw [hvp u, hinv1.preVals u]
    · intro a b
      show edgeCountV dep1 a b = edgeCountV pre1 b a
      rw [hcd a b, hcp b a, hinv1.mirror a b]
      congr 1
      exact if_congr and_comm rfl rfl
    · intro u hu
      exact hinv1.selMem u hu
    · exact hinv1.storNodup
    · intro a b
      show edgeCountV pre1 a b = _
      rw [hcp a b, hpc a b]
    · intro a b
      show edgeCountV dep1 a b = _
      rw [hcd a b, hdc a b]

/-- `Depends::addDependant` with a selection: the mirror image. -/
lemma addDependant_effect {st : TrackSt} (hinv : TInv st) {s : Int}
    (hsel : st.selected = some s) (v : Int) :
    TInv (Depends.addDependant st v).1 ∧
      (((Depends.addDependant st v).2 = true ∧
        (∀ a b, edgeCountV (Depends.addDependant st v).1.dep a b
          = edgeCountV st.dep a b + (if a = s ∧ b = v then 1 else 0)) ∧
        (∀ a b, edgeCountV (Depends.addDependant st v).1.pre a b
          = edgeCountV st.pre a b + (if a = v ∧ b = s then 1 else 0)))
      ∨ ((Depends.addDependant st v).2 = false ∧
        (∀ a b, edgeCountV (Depends.addDependant st v).1.pre a b = edgeCountV st.pre a b) ∧
        (∀ a b, edgeCountV (Depends.addDependant st v).1.dep a b = edgeCountV st.dep a b))) := by
  obtain ⟨hinv1, hdc, hpc, hseleq, hvmem, hsmem⟩ := tinsert_inv hinv v
  set st1 := (Depends.insert st v).1 with hst1
  have hsel1 : st1.selected = some s := by rw [hseleq, hsel]
  have hs1 : s ∈ st1.storage := (hsmem s).mpr (Or.inr (hinv.selMem s hsel))
  cases hld : DAG.linkV st1.dep s v with
  | error e =>
    have happ : Depends.addDependant st v = (st1, false) := by
      simp only [Depends.addDependant, ← hst1, hsel1, hld]
    rw [happ]
    exact ⟨hinv1, Or.inr ⟨rfl, fun a b => hpc a b, fun a b => hdc a b⟩⟩
  | ok dep1 =>
    obtain ⟨pre1, hlp⟩ : ∃ d, DAG.linkV st1.pre v s = .ok d :=
      (linkV_mirror_iff hinv1 hvmem hs1).mpr ⟨dep1, hld⟩
    have happ : Depends.addDependant st v = ({ st1 with dep := dep1, pre := pre1 }, true) := by
      simp only [Depends.addDependant, ← hst1, hsel1, hld, hlp]
    rw [happ]
    obtain ⟨hwfp, hfp, hcp, hvp⟩ := linkV_ok_inv hinv1.wfPre hlp
    obtain ⟨hwfd, hfd, hcd, hvd⟩ := linkV_ok_inv hinv1.wfDep hld
    refine ⟨⟨hwfd, hwfp, ?_, ?_, ?_, ?_, ?_⟩,
      Or.inl ⟨rfl, ?_, ?_⟩⟩
    · intro u
      show u ∈ valuesOf dep1.nodes ↔ u ∈ st1.storage
      rw [hvd u, hinv1.depVals u]
    · intro u
      show u ∈ valuesOf pre1.nodes ↔ u ∈ st1.storage
      rw [hvp u, hinv1.preVals u]
    · intro a b
      show edgeCountV dep1 a b = edgeCountV pre1 b a
      rw [hcd a b, hcp b a, hinv1.mirror a b]
      congr 1
      exact if_congr and_comm rfl rfl
    · intro u hu
      exact hinv1.selMem u hu
    · exact hinv1.storNodup
    · intro a b
      show edgeCountV dep1 a b = _
      rw [hcd a b, hdc a b]
    · intro a b
      show edgeCountV pre1 a b = _
      rw [hcp a b, hpc a b]

lemma edgeCountV_absent_right {dag : DAGSt} {b : Int} (hb : findNid dag b = none) (a : Int) :
    edgeCountV dag a b = 0 := by
  rw [edgeCountV, hb]
  cases findNid dag a <;> rfl

lemma edgeCountV_absent_left {dag : DAGSt} {a : Int} (ha : findNid dag a = none) (b : Int) :
    edgeCountV dag a b = 0 := by
  rw [edgeCountV, ha]

lemma findNid_none_of_not_stored {st : TrackSt} (hinv : TInv st) {v : Int}
    (hv : v ∉ st.storage) :
    findNid st.pre v = none ∧ findNid st.dep v = none := by
  constructor
  · rw [findNid_eq, vnodeOf?_eq_none.mpr (fun h => hv ((hinv.preVals v).mp h))]
    rfl
  · rw [findNid_eq, vnodeOf?_eq_none.mpr (fun h => hv ((hinv.depVals v).mp h))]
    rfl

/-- `Depends::removePrerequisite` with a selection: removes (at most)
one occurrence of the mirrored pair of direct edges - and, through
`DAG::unlink`, propagates the score deltas in both DAGs whether or not
the edges existed. -/
lemma removePrerequisite_effect {st : TrackSt} (hinv : TInv st) {s : Int}
    (hsel : st.selected = some s) (v : Int) :
    TInv (Depends.removePrerequisite st v) ∧
      (∀ a b, edgeCountV (Depends.removePrerequisite st v).pre a b
        = edgeCountV st.pre a b - (if a = s ∧ b = v then 1 else 0)) ∧
      (∀ a b, edgeCountV (Depends.removePrerequisite st v).dep a b
        = edgeCountV st.dep a b - (if a = v ∧ b = s then 1 else 0)) := by
  by_cases hv : v ∈ st.storage
  · have hs : s ∈ st.storage := hinv.selMem s hsel
    obtain ⟨ps, hps⟩ := Option.isSome_iff_exists.mp
      (findNid_isSome_iff.mpr ((hinv.preVals s).mpr hs))
    obtain ⟨pv, hpv⟩ := Option.isSome_iff_exists.mp
      (findNid_isSome_iff.mpr ((hinv.preVals v).mpr hv))
    obtain ⟨ds, hds⟩ := Option.isSome_iff_exists.mp
      (findNid_isSome_iff.mpr ((hinv.depVals s).mpr hs))
    obtain ⟨dv, hdv⟩ := Option.isSome_iff_exists.mp
      (findNid_isSome_iff.mpr ((hinv.depVals v).mpr hv))
    have hu1 : DAG.unlinkV st.pre s v = some (DAG.unlink st.pre ps pv) := by
      unfold DAG.unlinkV
      rw [hps, hpv]
    have hu2 : DAG.unlinkV st.dep v s = some (DAG.unlink st.dep dv ds) := by
      unfold DAG.unlinkV
      rw [hdv, hds]
    have happ : Depends.removePrerequisite st v =
        { st with pre := (DAG.unlink st.pre ps pv).1, dep := (DAG.unlink st.dep dv ds).1 } := by
      simp only [Depends.removePrerequisite, hsel, if_pos hv, hu1, hu2]
    obtain ⟨hwfp, hfp, hcp, hvp⟩ := unlinkV_inv hinv.wfPre
      (by rw [hu1] : DAG.unlinkV st.pre s v
        = some ((DAG.unlink st.pre ps pv).1, (DAG.unlink st.pre ps pv).2))
    obtain ⟨hwfd, hfd, hcd, hvd⟩ := unlinkV_inv hinv.wfDep
      (by rw [hu2] : DAG.unlinkV st.dep v s
        = some ((DAG.unlink st.dep dv ds).1, (DAG.unlink st.dep dv ds).2))
    rw [happ]
    refine ⟨⟨hwfd, hwfp, ?_, ?_, ?_, ?_, hinv.storNodup⟩, ?_, ?_⟩
    · intro u
      show u ∈ valuesOf (DAG.unlink st.dep dv ds).1.nodes ↔ u ∈ st.storage
      rw [hvd u, hinv.depVals u]
    · intro u
      show u ∈ valuesOf (DAG.unlink st.pre ps pv).1.nodes ↔ u ∈ st.storage
      rw [hvp u, hinv.preVals u]
    · intro a b
      show edgeCountV (DAG.unlink st.dep dv ds).1 a b
          = edgeCountV (DAG.unlink st.pre ps pv).1 b a
      rw [hcd a b, hcp b a, hinv.mirror a b]
      congr 1
      exact if_congr and_comm rfl rfl
    · intro u hu
      exact hinv.selMem u hu
    · intro a b
      exact hcp a b
    · intro a b
      exact hcd a b
  · have happ : Depends.removePrerequisite st v = st := by
      simp only [Depends.removePrerequisite, hsel, if_neg hv]
    rw [happ]
    obtain ⟨hpn, hdn⟩ := findNid_none_of_not_stored hinv hv
    refine ⟨hinv, ?_, ?_⟩
    · intro a b
      by_cases hc : a = s ∧ b = v
      · rcases hc with ⟨rfl, rfl⟩
        rw [edgeCountV_absent_right hpn a]
        simp
      · simp [hc]
    · intro a b
      by_cases hc : a = v ∧ b = s
      · rcases hc with ⟨rfl, rfl⟩
        rw [edgeCountV_absent_left hdn b]
        simp
      · simp [hc]

/-- `Depends::removeDependant` with a selection: the mirror image. -/
lemma removeDependant_effect {st : TrackSt} (hinv : TInv st) {s : Int}
    (hsel : st.selected = some s) (v : Int) :
    TInv (Depends.removeDependant st v) ∧
      (∀ a b, edgeCountV (Depends.removeDependant st v).dep a b
        = edgeCountV st.dep a b - (if a = s ∧ b = v then 1 else 0)) ∧
      (∀ a b, edgeCountV (Depends.removeDependant st v).pre a b
        = edgeCountV st.pre a b - (if a = v ∧ b = s then 1 else 0)) := by
  by_cases hv : v ∈ st.storage
  · have hs : s ∈ st.storage := hinv.selMem s hsel
    obtain ⟨ps, hps⟩ := Option.isSome_iff_exists.mp
      (findNid_isSome_iff.mpr ((hinv.preVals s).mpr hs))
    obtain ⟨pv, hpv⟩ := Option.isSome_iff_exists.mp
      (findNid_isSome_iff.mpr ((hinv.preVals v).mpr hv))
    obtain ⟨ds, hds⟩ := Option.isSome_iff_exists.mp
      (findNid_isSome_iff.mpr ((hinv.depVals s).mpr hs))
    obtain ⟨dv, hdv⟩ := Option.isSome_iff_exists.mp
      (findNid_isSome_iff.mpr ((hinv.depVals v).mpr hv))
    have hu1 : DAG.unlinkV st.dep s v = some (DAG.unlink st.dep ds dv) := by
      unfold DAG.unlinkV
      rw [hds, hdv]
    have hu2 : DAG.unlinkV st.pre v s = some (DAG.unlink st.pre pv ps) := by
      unfold DAG.unlinkV
      rw [hpv, hps]
    have happ : Depends.removeDependant st v =
        { st with dep := (DAG.unlink st.dep ds dv).1, pre := (DAG.unlink st.pre pv ps).1 } := by
      simp only [Depends.removeDependant, hsel, if_pos hv, hu1, hu2]
    obtain ⟨hwfd, hfd, hcd, hvd⟩ := unlinkV_inv hinv.wfDep
      (by rw [hu1] : DAG.unlinkV st.dep s v
        = some ((DAG.unlink st.dep ds dv).1, (DAG.unlink st.dep ds dv).2))
    obtain ⟨hwfp, hfp, hcp, hvp⟩ := unlinkV_inv hinv.wfPre
      (by rw [hu2] : DAG.unlinkV st.pre v s
        = some ((DAG.unlink st.pre pv ps).1, (DAG.unlink st.pre pv ps).2))
    rw [happ]
    refine ⟨⟨hwfd, hwfp, ?_, ?_, ?_, ?_, hinv.storNodup⟩, ?_, ?_⟩
    · intro u
      show u ∈ valuesOf (DAG.unlink st.dep ds dv).1.nodes ↔ u ∈ st.storage
      rw [hvd u, hinv.depVals u]
    · intro u
      show u ∈ valuesOf (DAG.unlink st.pre pv ps).1.nodes ↔ u ∈ st.storage
      rw [hvp u, hinv.preVals u]
    · intro a b
      show edgeCountV (DAG.unlink st.dep ds dv).1 a b
          = edgeCountV (DAG.unlink st.pre pv ps).1 b a
      rw [hcd a b, hcp b a, hinv.mirror a b]
      congr 1
      exact if_congr and_comm rfl rfl
    · intro u hu
      exact hinv.selMem u hu
    · intro a b
      exact hcd a b
    · intro a b
      exact hcp a b
  · have happ : Depends.removeDependant st v = st := by
      simp only [Depends.removeDependant, hsel, if_neg hv]
    rw [happ]
    obtain ⟨hpn, hdn⟩ := findNid_none_of_not_stored hinv hv
    refine ⟨hinv, ?_, ?_⟩
    · intro a b
      by_cases hc : a = s ∧ b = v
      · rcases hc with ⟨rfl, rfl⟩
        rw [edgeCountV_absent_right hdn a]
        simp
      · simp [hc]
    · intro a b
      by_cases hc : a = v ∧ b = s
      · rcases hc with ⟨rfl, rfl⟩
        rw [edgeCountV_absent_left hpn b]
        simp
      · simp [hc]

/-- `Depends::select(end)` preserves the invariant. -/
lemma selectEnd_inv {st : TrackSt} (hinv : TInv st) :
    TInv (Depends.selectIt st none).1 := by
  exact ⟨hinv.wfDep, hinv.wfPre, hinv.depVals, hinv.preVals, hinv.mirror,
    fun u hu => by simp [Depends.selectIt] at hu, hinv.storNodup⟩

/-- `Depends::select` of a stored value preserves the invariant. -/
lemma selectIter_inv {st : TrackSt} (hinv : TInv st) {v : Int} (hv : v ∈ st.storage) :
    TInv (Depends.selectIt st (some v)).1 := by
  refine ⟨hinv.wfDep, hinv.wfPre, hinv.depVals, hinv.preVals, hinv.mirror, ?_, hinv.storNodup⟩
  intro u hu
  simp only [Depends.selectIt, Option.some.injEq] at hu
  exact hu ▸ hv

/-- `Depends::select(const value_type &)` preserves the invariant. -/
lemma selectV_inv {st : TrackSt} (hinv : TInv st) (v : Int) :
    TInv (Depends.selectV st v) := by
  obtain ⟨hinv1, _, _, _, hvmem, _⟩ := tinsert_inv hinv v
  exact selectIter_inv hinv1 hvmem

/-- `Depends::clear` restores the invariant of the empty tracker. -/
lemma clear_inv (st : TrackSt) : TInv (Depends.clear st) := by
  refine ⟨wf_nil st.dep.nextId, wf_nil st.pre.nextId, ?_, ?_, ?_, ?_, List.nodup_nil⟩
  · intro v
    exact iff_of_false (by simp [Depends.clear, valuesOf]) (by simp [Depends.clear])
  · intro v
    exact iff_of_false (by simp [Depends.clear, valuesOf]) (by simp [Depends.clear])
  · intro a b
    rfl
  · intro v h
    simp [Depends.clear] at h

/-!
Helper lemmas and concrete states used to settle the specified
properties.
-/

/-- On a step `a -> b` of a well-formed graph the target `b` is itself a
node of the graph (`targets_` holds pointers to nodes of this DAG). -/
lemma estep_tgt_mem_ids {st : DAGSt} (hwf : WF st) {a b : Nat}
    (h : Estep st.nodes a b) : b ∈ idsOf st.nodes := by
  rw [Estep, targetsOfN] at h
  cases hn : nodeOf? st.nodes a with
  | none => rw [hn] at h; exact absurd h (List.not_mem_nil b)
  | some n =>
    rw [hn] at h
    exact hwf.closed n (nodeOf?_spec hn).1 b h

lemma reaches_tgt_mem_ids {st : DAGSt} (hwf : WF st) {a b : Nat}
    (ha : a ∈ idsOf st.nodes) (h : Reaches st.nodes a b) : b ∈ idsOf st.nodes := by
  induction h with
  | refl => exact ha
  | tail hab hbc ih => exact estep_tgt_mem_ids hwf hbc

/-- Scores (including the default 0 of an absent identifier) are below
the wrap-around bound on a well-formed graph. -/
lemma scoreOfN_lt_W {st : DAGSt} (hwf : WF st) (y : Nat) : scoreOfN st.nodes y < W := by
  cases h : nodeOf? st.nodes y with
  | none =>
    rw [scoreOfN, h]
    exact W_pos
  | some n =>
    rw [scoreOfN, h]
    exact hwf.scoresLt n (nodeOf?_spec h).1

/-- `DAG::linked` answers reachability: it catches the
`CircularReference` thrown when the visit from the source meets the
flagged target. -/
lemma linkedN_true_iff {st : DAGSt} (hacyc : Acyclic st.nodes) (s t : Nat) :
    (DAG.linkedN st s t = true ↔ Reaches st.nodes s t) := by
  cases hchk : visitNodeF (fuelOf st) st.nodes [t] s with
  | error e =>
    cases e
    exact iff_of_true (by simp [DAG.linkedN, hchk]) ((visit_check_iff hacyc t s).mp hchk)
  | ok l =>
    refine iff_of_false (by simp [DAG.linkedN, hchk]) ?_
    intro hr
    rw [(visit_check_iff hacyc t s).mpr hr] at hchk
    exact absurd hchk (by simp)

/-- `DAG::linked(x, x)` is true for every identifier: the visit starts
at the already-flagged node and throws immediately. -/
lemma linkedN_self (st : DAGSt) (x : Nat) : DAG.linkedN st x x = true := by
  simp [DAG.linkedN, fuelOf, visitNodeF]

/-- Under the tracker invariant, reachability of `b` from `a` in
`dependants_` is reachability of `a` from `b` in `prerequisites_`. -/
lemma linkedV_mirror {st : TrackSt} (hinv : TInv st) {a b : Int}
    (ha : a ∈ st.storage) (hb : b ∈ st.storage) :
    DAG.linkedV st.dep a b = DAG.linkedV st.pre b a := by
  obtain ⟨xa, hxa⟩ := Option.isSome_iff_exists.mp
    (findNid_isSome_iff.mpr ((hinv.depVals a).mpr ha))
  obtain ⟨xb, hxb⟩ := Option.isSome_iff_exists.mp
    (findNid_isSome_iff.mpr ((hinv.depVals b).mpr hb))
  obtain ⟨ya, hya⟩ := Option.isSome_iff_exists.mp
    (findNid_isSome_iff.mpr ((hinv.preVals a).mpr ha))
  obtain ⟨yb, hyb⟩ := Option.isSome_iff_exists.mp
    (findNid_isSome_iff.mpr ((hinv.preVals b).mpr hb))
  have h1 : DAG.linkedV st.dep a b = DAG.linkedN st.dep xa xb := by
    unfold DAG.linkedV
    rw [hxa, hxb]
  have h2 : DAG.linkedV st.pre b a = DAG.linkedN st.pre yb ya := by
    unfold DAG.linkedV
    rw [hyb, hya]
  rw [h1, h2, Bool.eq_iff_iff,
    linkedN_true_iff hinv.wfDep.acyclic, linkedN_true_iff hinv.wfPre.acyclic,
    reaches_v_iff hinv.wfDep hxa hxb, reaches_v_iff hinv.wfPre hyb hya]
  have hmir : ∀ c d : Int, EstepV st.dep c d ↔ EstepV st.pre d c := by
    intro c d
    unfold EstepV
    rw [hinv.mirror c d]
  exact ⟨rtg_flip hmir, rtg_flip (fun c d => (hmir d c).symm)⟩

/-- `DAG::link` as observed by a caller that catches the thrown
`CircularReference`: the Bool records success, and on failure the caller
still holds the untouched pre-call graph (the cycle check of the source
runs before any mutation). -/
def DAG.linkT (st : DAGSt) (s t : Nat) : DAGSt × Bool :=
  match DAG.link st s t with
  | none => (st, false)
  | some st' => (st', true)

/-- A `link` call whose result is kept on success and whose failure
leaves the caller with the pre-call graph (used to build concrete
states). -/
def linkD (st : DAGSt) (s t : Nat) : DAGSt := (DAG.link st s t).getD st

/-- A sequence of `DAG::insert` calls together with each call's
return value. -/
def insertSeq (st : DAGSt) : List Int → DAGSt × List Bool
  | [] => (st, [])
  | v :: vs =>
    let p := DAG.insert st v
    let q := insertSeq p.1 vs
    (q.1, p.2 :: q.2)

/-- Two values inserted into an empty DAG (nodes 0 and 1). -/
def exD2 : DAGSt := (DAG.insert (DAG.insert DAG.empty 0).1 1).1

/-- Five values inserted into an empty DAG (nodes 0..4). -/
def exDia0 : DAGSt :=
  (DAG.insert (DAG.insert (DAG.insert (DAG.insert (DAG.insert
    DAG.empty 0).1 1).1 2).1 3).1 4).1

/-- The diamond 3 -> 1 -> 0, 3 -> 2 -> 0 (with node 4 unlinked): node 0
is reachable from node 3 along two paths. -/
def exDia : DAGSt := linkD (linkD (linkD (linkD exDia0 1 0) 2 0) 3 1) 3 2

/-- The diamond after `link(4, 3)`. -/
def exDia' : DAGSt := linkD exDia 4 3

/-- The sequence insert(1), insert(2) on an empty DAG. -/
def exU0 : DAGSt := (DAG.insert (DAG.insert DAG.empty 1).1 2).1

/-- ... then link(2, 1) (nodes 1 and 0). -/
def exU1 : DAGSt := linkD exU0 1 0

/-- ... then insert(3). -/
def exU2 : DAGSt := (DAG.insert exU1 3).1

/-- ... then link(3, 2) (nodes 2 and 1). -/
def exU3 : DAGSt := linkD exU2 2 1

/-- ... then unlink(3, 2). -/
def exU4 : DAGSt := (DAG.unlink exU3 2 1).1

/-- A tracker holding 0, 1, 2 with 0 selected and 1 as a prerequisite of
0; the value 2 is stored but not linked to anything. -/
def exT5a : TrackSt :=
  (Depends.addPrerequisite
    (Depends.selectV
      (Depends.insert (Depends.insert (Depends.insert Depends.empty 0).1 1).1 2).1 0) 1).1

/-- The same tracker after `removePrerequisite(2)`. -/
def exT5b : TrackSt := Depends.removePrerequisite exT5a 2

/-- The tracker after select(0).addDependant(1); select(1).addDependant(2);
select(0). -/
def exT8 : TrackSt :=
  Depends.selectV
    ((Depends.addDependant
        (Depends.selectV ((Depends.addDependant (Depends.selectV Depends.empty 0) 1).1) 1)
        2).1)
    0

/-- A tracker holding the single value 5. -/
def exT1 : TrackSt := (Depends.insert Depends.empty 5).1

/-- A tracker holding 0, 1 and 2 (a = 0, b = 1, c = 2). -/
def exT6a : TrackSt :=
  (Depends.insert (Depends.insert (Depends.insert Depends.empty 0).1 1).1 2).1

/-- ... after select(2).addDependant(1). -/
def exT6b : TrackSt := (Depends.addDependant (Depends.selectV exT6a 2) 1).1

/-- ... after select(0).addDependant(1): `dependants_` holds the edges
2 -> 1 and 0 -> 1, `prerequisites_` the mirrored 1 -> 2 and 1 -> 0. -/
def exT6c : TrackSt := (Depends.addDependant (Depends.selectV exT6b 0) 1).1

/-- ... after erase(0).  In `dependants_` the positional `DAG::erase`
finds value 0's node at position 1, but its unlink loop's address sort
moves value 1's node there, so THAT node is deleted; in
`prerequisites_` value 0's node has no out-edges, the loop never sorts,
and the correct node is deleted. -/
def exT6tr : TrackSt := Depends.eraseV exT6c 0

/-- C1: on a well-formed DAG with valid iterators, `link(source, target)`
throws `CircularReference` exactly when the source equals the target or
is already reachable from the target (so the new edge would close a
cycle), and a caller that catches the exception still holds the
unmodified pre-call graph. -/
theorem claim_C1 (st : DAGSt) (hwf : WF st) (s t : Nat)
    (hs : s ∈ idsOf st.nodes) (ht : t ∈ idsOf st.nodes) :
    ((DAG.linkT st s t).2 = false ↔ (s = t ∨ Relation.TransGen (Estep st.nodes) t s)) ∧
    ((DAG.linkT st s t).2 = false → (DAG.linkT st s t).1 = st) := by
  have e1 : ((DAG.linkT st s t).2 = false ↔ DAG.link st s t = none) := by
    unfold DAG.linkT
    cases DAG.link st s t <;> simp
  constructor
  · rw [e1, link_none_iff hwf.acyclic s t]
    exact Relation.reflTransGen_iff_eq_or_transGen
  · intro hf
    have hnone : DAG.link st s t = none := e1.mp hf
    unfold DAG.linkT
    rw [hnone]

theorem claim_C1_witness :
    (((DAG.linkT exD2 0 0).2 = false ↔
        ((0 : Nat) = 0 ∨ Relation.TransGen (Estep exD2.nodes) 0 0)) ∧
     ((DAG.linkT exD2 0 0).2 = false → (DAG.linkT exD2 0 0).1 = exD2)) :=
  claim_C1 exD2 (dreach_wf (DReach.insert 1 (DReach.insert 0 DReach.empty))) 0 0
    (by decide) (by decide)

/-- C2: every DAG state reachable by insert, link, unlink and erase
calls has an acyclic edge relation, and any link call whose new edge
would break acyclicity returns the thrown `CircularReference` instead of
a mutated graph. -/
theorem claim_C2 (st : DAGSt) (h : DReach st) :
    Acyclic st.nodes ∧
    ∀ s t : Nat, ¬ Acyclic (DAG.addEdge st s t).nodes → DAG.link st s t = none := by
  have hwf := dreach_wf h
  refine ⟨hwf.acyclic, ?_⟩
  intro s t hnac
  cases hl : DAG.link st s t with
  | none => rfl
  | some st' =>
    obtain ⟨hnr, _⟩ := link_some_spec hwf.acyclic hl
    exact absurd (acyclic_addEdge hwf.acyclic hnr) hnac

theorem claim_C2_witness :
    Acyclic exD2.nodes ∧
    ∀ s t : Nat, ¬ Acyclic (DAG.addEdge exD2 s t).nodes → DAG.link exD2 s t = none :=
  claim_C2 exD2 (DReach.insert 1 (DReach.insert 0 DReach.empty))

/-- C9 (amended): a stored value `v` depends on itself whenever its
node is present in `dependants_` - `DAG::linked(x, x)` is true for
every identifier, because the visit starts at the node the `ScopedFlag`
has just flagged and throws immediately, with no self-path involved.
The presence proviso is forced by the positional-erase defect: erasing
another value can delete `v`'s `dependants_` node (see the C6 and C9
counterexample state), after which `depends(v, v)` is false with `v`
still stored. -/
theorem claim_C9 (st : TrackSt) (v : Int) (hv : v ∈ st.storage)
    (hn : (findNid st.dep v).isSome) :
    Depends.depends st v v = true ∧
    (∀ x : Nat, DAG.linkedN st.dep x x = true) := by
  obtain ⟨x, hx⟩ := Option.isSome_iff_exists.mp hn
  refine ⟨?_, fun y => linkedN_self st.dep y⟩
  unfold Depends.depends
  rw [if_pos ⟨hv, hv⟩]
  unfold DAG.linkedV
  rw [hx]
  exact linkedN_self st.dep x

theorem claim_C9_witness :
    Depends.depends exT1 5 5 = true ∧
    (∀ x : Nat, DAG.linkedN exT1.dep x x = true) :=
  claim_C9 exT1 5 (by decide) (by decide)

/-- C9, counterexample to the original property: in the trace
insert 0, 1, 2; select(2).addDependant(1); select(0).addDependant(1);
erase(0), the positional erase deletes value 1's `dependants_` node
instead of value 0's, so 1 is still stored yet `depends(1, 1)` returns
false (the by-value `linked` finds no node for 1). -/
theorem claim_C9_counterexample :
    (1 : Int) ∈ exT6tr.storage ∧ Depends.depends exT6tr 1 1 = false := by
  decide

/-- C10: `Depends::select` clears the current selection first and only
then rejects the end iterator: the call reports the thrown
`Cannot select end` and the tracker is left with no selection, the rest
of its state untouched. -/
theorem claim_C10 (st : TrackSt) :
    (Depends.selectIt st none).2 = false ∧
    (Depends.selectIt st none).1.selected = none ∧
    (Depends.selectIt st none).1.storage = st.storage ∧
    (Depends.selectIt st none).1.dep = st.dep ∧
    (Depends.selectIt st none).1.pre = st.pre :=
  ⟨rfl, rfl, rfl, rfl, rfl⟩

/-- C3 (amended): after a successful `link(A, B)`, B's score is its old
score plus A's (B is visited exactly once), and every node reachable
from B has A's old score added once PER VISIT - at least once, but a
node reachable along several paths is incremented several times, since
the `VISITED` flag of `Node::visit` only guards the current path
(`ScopedFlag` clears it on unwinding); unreachable nodes are untouched.
All sums wrap around modulo `2 ^ 64`. -/
theorem claim_C3 (st : DAGSt) (hwf : WF st) (s t : Nat) (ht : t ∈ idsOf st.nodes)
    (st' : DAGSt) (h : DAG.link st s t = some st') :
    scoreOfN st'.nodes t = (scoreOfN st.nodes t + scoreOfN st.nodes s) % W ∧
    (∀ y, y ∈ idsOf st.nodes → Reaches st.nodes t y →
      ∃ k, 1 ≤ k ∧
        scoreOfN st'.nodes y = (scoreOfN st.nodes y + k * scoreOfN st.nodes s) % W) ∧
    (∀ y, y ∈ idsOf st.nodes → ¬ Reaches st.nodes t y →
      scoreOfN st'.nodes y = scoreOfN st.nodes y) := by
  obtain ⟨hnr, l, hmem, hcnt, hnodes, hnext⟩ := link_some_spec hwf.acyclic h
  have hnd1 : ((DAG.addEdge st s t).nodes.map DNode.nid).Nodup := by
    have hh := idsOf_addEdge st s t
    unfold idsOf at hh
    rw [hh]
    exact hwf.nidsNodup
  have hperm : st'.nodes.Perm (applyVisits (DAG.addEdge st s t).nodes l
      (fun sc => wadd sc (scoreOfN (DAG.addEdge st s t).nodes s))) := by
    rw [hnodes]
    exact List.perm_insertionSort _ _
  have hkey : ∀ y, y ∈ idsOf st.nodes →
      scoreOfN st'.nodes y
        = (scoreOfN st.nodes y + l.count y * scoreOfN st.nodes s) % W := by
    intro y hy
    have hy1 : y ∈ idsOf (DAG.addEdge st s t).nodes := by
      rw [idsOf_addEdge]
      exact hy
    cases hny : nodeOf? (DAG.addEdge st s t).nodes y with
    | none => exact absurd hy1 (nodeOf?_eq_none.mp hny)
    | some n =>
      rw [scoreOfN_post hnd1 hperm y, scoreOfN_applyVisits hny l _,
        scoreOfN_addEdge st s t s, scoreOfN_addEdge st s t y,
        wadd_iterate (scoreOfN_lt_W hwf y) (l.count y)]
  refine ⟨?_, ?_, ?_⟩
  · have := hkey t ht
    rw [hcnt, one_mul] at this
    exact this
  · intro y hy hr
    refine ⟨l.count y, ?_, hkey y hy⟩
    have hyl : y ∈ l := (hmem y).mpr
      (Relation.ReflTransGen.mono (fun a b hab => estep_addEdge.mpr (Or.inl hab)) hr)
    exact List.count_pos_iff.mpr hyl
  · intro y hy hnr2
    have hyl : y ∉ l := by
      intro hyl
      rcases rtg_addEdge_decomp hnr ((hmem y).mp hyl) with h1 | ⟨h1, _⟩
      · exact hnr2 h1
      · exact hnr h1
    have := hkey y hy
    rw [List.count_eq_zero.mpr hyl, Nat.zero_mul, Nat.add_zero,
      Nat.mod_eq_of_lt (scoreOfN_lt_W hwf y)] at this
    exact this

theorem claim_C3_witness :
    scoreOfN (linkD exD2 1 0).nodes 0
        = (scoreOfN exD2.nodes 0 + scoreOfN exD2.nodes 1) % W ∧
    (∀ y, y ∈ idsOf exD2.nodes → Reaches exD2.nodes 0 y →
      ∃ k, 1 ≤ k ∧
        scoreOfN (linkD exD2 1 0).nodes y
          = (scoreOfN exD2.nodes y + k * scoreOfN exD2.nodes 1) % W) ∧
    (∀ y, y ∈ idsOf exD2.nodes → ¬ Reaches exD2.nodes 0 y →
      scoreOfN (linkD exD2 1 0).nodes y = scoreOfN exD2.nodes y) :=
  claim_C3 exD2 (dreach_wf (DReach.insert 1 (DReach.insert 0 DReach.empty))) 1 0
    (by decide) (linkD exD2 1 0) (by decide)

/-- C3, counterexample to the original property: in the diamond
3 -> 1 -> 0 and 3 -> 2 -> 0 (all scores so far: node 0 at 5, node 4 at
1), `link(4, 3)` succeeds and increments node 0's score TWICE by the
source's score - 5 becomes 7, not the claimed 5 + 1: node 0 is visited
once per path, not exactly once. -/
theorem claim_C3_counterexample :
    (DAG.link exDia 4 3).isSome = true ∧
    Estep exDia.nodes 3 1 ∧ Estep exDia.nodes 1 0 ∧
    scoreOfN exDia.nodes 0 = 5 ∧ scoreOfN exDia.nodes 4 = 1 ∧
    scoreOfN exDia'.nodes 0 = 7 ∧
    scoreOfN exDia'.nodes 0 ≠ (scoreOfN exDia.nodes 0 + scoreOfN exDia.nodes 4) % W := by
  decide

/-- C4: refuted by the code - `DAG::unlink` ends with
`std::sort(nodes_.begin(), nodes_.end())`, which sorts the raw node
POINTERS by address instead of by score.  After insert(1), insert(2),
link(2,1), insert(3), link(3,2) the iteration scores are the sorted
[1, 2, 3]; the unlink(3, 2) call removes an edge that IS present, yet
leaves the vector in allocation order with scores [2, 1, 1], which is
not non-decreasing. -/
theorem claim_C4 :
    List.Sorted (fun a b => a ≤ b) (exU3.nodes.map DNode.score) ∧
    (DAG.unlink exU3 2 1).2 = true ∧
    exU4.nodes.map DNode.score = [2, 1, 1] ∧
    ¬ List.Sorted (fun a b => a ≤ b) (exU4.nodes.map DNode.score) := by
  decide

/-- C5: refuted by the code - with 0 selected, 2 stored and no edge
between 0 and 2 in either DAG, `removePrerequisite(2)` is NOT a no-op:
each `DAG::unlink` call propagates its score decrement and re-sorts the
node vector even when the edge to remove is absent, so both internal
DAGs change (the node storing 2 in `prerequisites_` drops from score 1
to 0, the node storing 0 in `dependants_` from 2 to 1). -/
theorem claim_C5 :
    exT5a.selected = some 0 ∧
    (2 : Int) ∈ exT5a.storage ∧
    edgeCountV exT5a.pre 0 2 = 0 ∧ edgeCountV exT5a.pre 2 0 = 0 ∧
    edgeCountV exT5a.dep 2 0 = 0 ∧ edgeCountV exT5a.dep 0 2 = 0 ∧
    exT5b.pre ≠ exT5a.pre ∧ exT5b.dep ≠ exT5a.dep := by
  decide

/-- C7 (amended): inserting 0..9 into an empty DAG reports an insertion
for each value and yields ten nodes of score 1; but `DAG::insert` puts
each new node at the FRONT of the vector and does no sorting, so with
all scores equal the iteration order is the reverse insertion order
9, 8, ..., 0, not ascending by value. -/
theorem claim_C7 :
    (insertSeq DAG.empty ((List.range 10).map (fun n => (n : Int)))).2
        = List.replicate 10 true ∧
    valuesOf (insertSeq DAG.empty ((List.range 10).map (fun n => (n : Int)))).1.nodes
        = [9, 8, 7, 6, 5, 4, 3, 2, 1, 0] ∧
    (insertSeq DAG.empty ((List.range 10).map (fun n => (n : Int)))).1.nodes.map DNode.score
        = List.replicate 10 1 := by
  decide

/-- C7, counterexample to the original property: the iteration order
after the ten inserts is not the ascending tie-break order 0..9. -/
theorem claim_C7_counterexample :
    ¬ valuesOf (insertSeq DAG.empty ((List.range 10).map (fun n => (n : Int)))).1.nodes
        = [0, 1, 2, 3, 4, 5, 6, 7, 8, 9] := by
  decide

/-- C8: after select(0).addDependant(1), select(1).addDependant(2) and
selecting 0 again, `getDependants` returns the transitive closure
{1, 2} with `all` true and the direct dependants {1} with `all`
false. -/
theorem claim_C8 :
    Depends.getDependants exT8 true = ({1, 2} : Finset Int) ∧
    Depends.getDependants exT8 false = ({1} : Finset Int) := by
  decide

/-- C6: refuted by the code - the mirror invariant does not survive
`Depends::erase`.  In the trace insert 0, 1, 2;
select(2).addDependant(1); select(0).addDependant(1); erase(0), both
adds succeed and the mirror holds before the erase; but the positional
`DAG::erase` in `dependants_` finds value 0's node at position 1, its
unlink loop's address sort moves value 1's node to that position, and
the erase deletes value 1's node (value 0's stale node stays behind),
while `prerequisites_` - where value 0's node has no out-edges, so no
sort runs - deletes the correct node.  Afterwards 1 is linked to 2 in
`prerequisites_` but 1 has no node in `dependants_` at all: the claimed
iff fails in a program-reachable state. -/
theorem claim_C6 :
    (Depends.addDependant (Depends.selectV exT6a 2) 1).2 = true ∧
    (Depends.addDependant (Depends.selectV exT6b 0) 1).2 = true ∧
    DAG.linkedV exT6c.dep 2 1 = DAG.linkedV exT6c.pre 1 2 ∧
    (1 : Int) ∈ exT6tr.storage ∧ (2 : Int) ∈ exT6tr.storage ∧
    (0 : Int) ∉ exT6tr.storage ∧
    DAG.linkedV exT6tr.pre 1 2 = true ∧
    DAG.linkedV exT6tr.dep 2 1 = false ∧
    findNid exT6tr.dep 1 = none ∧
    findNid exT6tr.dep 0 ≠ none := by
  decide
